import Mathlib

/-!
Verification of the boundary- and initial-condition compiler of openccm
(source file `openccm/system_solvers/boundary_and_initial_conditions.py`).

Strings are modelled as `List Char`.  Pure string-processing functions of the
source are translated directly; the symbolic-algebra library (sympy) and the
numeric array library (numpy) are external collaborators and are modelled
abstractly where a claim needs them.
-/

deriving instance DecidableEq for Except

/-- Per-character parenthesis balance: an opening parenthesis counts `+1`,
a closing one counts `-1`, anything else `0`. -/
def charBal (c : Char) : Int := if c = '(' then 1 else if c = ')' then -1 else 0

/-- Parenthesis balance of a string: number of `(` minus number of `)`. -/
def parenBal : List Char → Int
  | [] => 0
  | c :: r => charBal c + parenBal r

lemma charBal_open : charBal '(' = 1 := by decide

lemma charBal_close : charBal ')' = -1 := by decide

lemma charBal_other {c : Char} (h1 : c ≠ '(') (h2 : c ≠ ')') : charBal c = 0 := by
  simp [charBal, h1, h2]

/-- The scanning loop of `_get_end_of_first_term` (source lines 337-348):
left-to-right scan keeping the current nesting depth (the length of the
`paran_stack`); `i` is the index of the current character in the original
string.  Returns the index of the closing parenthesis that brings the depth
to zero, or the malformed-equation error of line 348 when the string runs
out.  Popping an empty stack is a Python `IndexError`; it is represented by
a distinct error value. -/
def gefftGo : List Char → Nat → Nat → Except String Nat
  | [], _, _ => .error "Could not find closing parenthesis, equation malformed."
  | c :: rest, depth, i =>
    if c = '(' then gefftGo rest (depth + 1) (i + 1)
    else if c = ')' then
      if depth = 0 then .error "IndexError: pop from empty list"
      else if depth = 1 then .ok i
      else gefftGo rest (depth - 1) (i + 1)
    else gefftGo rest depth (i + 1)

/-- Embedding of `_get_end_of_first_term` (source lines 322-348).  The three
Python `assert` statements (minimum length two, equal parenthesis counts,
leading opening parenthesis) are modelled as error results. -/
def _get_end_of_first_term (s : List Char) : Except String Nat :=
  if s.length < 2 then .error "assert failed: len(str_to_parse) >= 2"
  else if ¬ (s.count '(' = s.count ')') then .error "assert failed: equal parenthesis counts"
  else if s.head? = some '(' then gefftGo s.tail 1 1
  else .error "assert failed: leading opening parenthesis"

lemma parenBal_cons (c : Char) (r : List Char) : parenBal (c :: r) = charBal c + parenBal r := rfl

lemma parenBal_append (a b : List Char) : parenBal (a ++ b) = parenBal a + parenBal b := by
  induction a with
  | nil => simp [parenBal]
  | cons c r ih => simp only [List.cons_append, parenBal_cons, ih]; ring

/-- Balance as a difference of character counts (the source tests counts). -/
lemma parenBal_eq_counts (s : List Char) :
    parenBal s = (s.count '(' : Int) - (s.count ')' : Int) := by
  induction s with
  | nil => simp [parenBal]
  | cons c r ih =>
    rw [parenBal_cons, ih, List.count_cons, List.count_cons]
    by_cases h1 : c = '(' <;> by_cases h2 : c = ')' <;>
      simp_all [charBal] <;> push_cast <;> ring

lemma gefftGo_cons_open (r : List Char) (d i : Nat) :
    gefftGo ('(' :: r) d i = gefftGo r (d + 1) (i + 1) := by
  simp [gefftGo]

lemma gefftGo_cons_close_one (r : List Char) (i : Nat) :
    gefftGo (')' :: r) 1 i = .ok i := by
  simp [gefftGo]

lemma gefftGo_cons_close_big (r : List Char) (d i : Nat) (hd : 2 ≤ d) :
    gefftGo (')' :: r) d i = gefftGo r (d - 1) (i + 1) := by
  have h0 : d ≠ 0 := by omega
  have h1 : d ≠ 1 := by omega
  simp [gefftGo, h0, h1]

lemma gefftGo_cons_other {c : Char} (h1 : c ≠ '(') (h2 : c ≠ ')') (r : List Char) (d i : Nat) :
    gefftGo (c :: r) d i = gefftGo r d (i + 1) := by
  simp [gefftGo, h1, h2]

/-- Behaviour of the scanning loop: started at depth `d ≥ 1` on a string whose
total balance would close the outer parenthesis, it returns the index of the
first character at which the running depth reaches zero, and that character is
a closing parenthesis. -/
lemma gefftGo_spec (s : List Char) : ∀ (d i : Nat), 1 ≤ d →
    (d : Int) + parenBal s ≤ 0 →
    ∃ n, gefftGo s d i = .ok (i + n) ∧ s[n]? = some ')' ∧
      (d : Int) + parenBal (s.take (n+1)) = 0 ∧
      ∀ m < n, 0 < (d : Int) + parenBal (s.take (m+1)) := by
  induction s with
  | nil =>
    intro d i hd h
    simp only [parenBal] at h
    omega
  | cons c r ih =>
    intro d i hd h
    rw [parenBal_cons] at h
    by_cases hc : c = '('
    · subst hc
      rw [charBal_open] at h
      obtain ⟨n, h1, h2, h3, h4⟩ := ih (d+1) (i+1) (by omega) (by push_cast; omega)
      refine ⟨n+1, ?_, ?_, ?_, ?_⟩
      · rw [gefftGo_cons_open, h1]
        congr 1
        omega
      · simpa using h2
      · rw [List.take_succ_cons, parenBal_cons, charBal_open]
        push_cast at h3
        omega
      · intro m hm
        cases m with
        | zero =>
          rw [List.take_succ_cons, List.take_zero, parenBal_cons, charBal_open]
          simp only [parenBal]
          omega
        | succ m' =>
          have := h4 m' (by omega)
          rw [List.take_succ_cons, parenBal_cons, charBal_open]
          push_cast at this
          omega
    · by_cases hc' : c = ')'
      · subst hc'
        rw [charBal_close] at h
        by_cases hd1 : d = 1
        · subst hd1
          refine ⟨0, ?_, ?_, ?_, ?_⟩
          · simp [gefftGo_cons_close_one]
          · simp
          · rw [List.take_succ_cons, List.take_zero, parenBal_cons, charBal_close]
            simp only [parenBal]
            omega
          · intro m hm; omega
        · have hd2 : 2 ≤ d := by omega
          have hcast : ((d - 1 : Nat) : Int) = (d : Int) - 1 := by omega
          obtain ⟨n, h1, h2, h3, h4⟩ := ih (d-1) (i+1) (by omega) (by omega)
          refine ⟨n+1, ?_, ?_, ?_, ?_⟩
          · rw [gefftGo_cons_close_big r d i hd2, h1]
            congr 1
            omega
          · simpa using h2
          · rw [List.take_succ_cons, parenBal_cons, charBal_close]
            omega
          · intro m hm
            cases m with
            | zero =>
              rw [List.take_succ_cons, List.take_zero, parenBal_cons, charBal_close]
              simp only [parenBal]
              omega
            | succ m' =>
              have := h4 m' (by omega)
              rw [List.take_succ_cons, parenBal_cons, charBal_close]
              omega
      · have hb : charBal c = 0 := charBal_other hc hc'
        rw [hb] at h
        obtain ⟨n, h1, h2, h3, h4⟩ := ih d (i+1) hd (by omega)
        refine ⟨n+1, ?_, ?_, ?_, ?_⟩
        · rw [gefftGo_cons_other hc hc', h1]
          congr 1
          omega
        · simpa using h2
        · rw [List.take_succ_cons, parenBal_cons, hb]
          omega
        · intro m hm
          cases m with
          | zero =>
            rw [List.take_succ_cons, List.take_zero, parenBal_cons, hb]
            simp only [parenBal]
            omega
          | succ m' =>
            have := h4 m' (by omega)
            rw [List.take_succ_cons, parenBal_cons, hb]
            omega

/-- Claim C4: on a string that begins with an opening parenthesis and has
balanced parenthesis counts overall, `_get_end_of_first_term` returns the
index of the closing parenthesis matching the first opening parenthesis
(the first index at which the running balance returns to zero, holding a
closing parenthesis, every earlier prefix staying strictly positive); and it
fails on any string shorter than two characters. -/
theorem C4_get_end_of_first_term_spec (s : List Char) :
    (2 ≤ s.length → s.head? = some '(' → s.count '(' = s.count ')' →
      ∃ i, _get_end_of_first_term s = .ok i ∧ s[i]? = some ')' ∧
        parenBal (s.take (i+1)) = 0 ∧ ∀ j < i, 0 < parenBal (s.take (j+1))) ∧
    (s.length < 2 → ∃ e, _get_end_of_first_term s = .error e) := by
  constructor
  · intro hlen hhead hcount
    obtain ⟨c, t, rfl⟩ : ∃ c t, s = c :: t := by
      cases s with
      | nil => simp at hhead
      | cons c t => exact ⟨c, t, rfl⟩
    have hc : c = '(' := by simpa using hhead
    subst hc
    have hbal : parenBal ('(' :: t) = 0 := by
      rw [parenBal_eq_counts, hcount]; ring
    rw [parenBal_cons, charBal_open] at hbal
    obtain ⟨n, h1, h2, h3, h4⟩ := gefftGo_spec t 1 1 le_rfl (by omega)
    refine ⟨1 + n, ?_, ?_, ?_, ?_⟩
    · rw [_get_end_of_first_term, if_neg (by omega), if_neg (by simp [hcount]),
        if_pos (show ('(' :: t).head? = some '(' from rfl)]
      exact h1
    · rw [Nat.add_comm 1 n]
      simpa using h2
    · rw [show 1 + n + 1 = n + 1 + 1 by omega, List.take_succ_cons, parenBal_cons,
        charBal_open]
      omega
    · intro j hj
      cases j with
      | zero =>
        rw [List.take_succ_cons, List.take_zero, parenBal_cons, charBal_open]
        simp only [parenBal]
        omega
      | succ m =>
        have := h4 m (by omega)
        rw [List.take_succ_cons, parenBal_cons, charBal_open]
        omega
  · intro hlen
    exact ⟨_, by rw [_get_end_of_first_term, if_pos hlen]⟩

/-- Witness for C4 at the concrete input `"(())"`. -/
theorem C4_witness :
    (2 ≤ ("(())".toList).length ∧ ("(())".toList).head? = some '(' ∧
      ("(())".toList).count '(' = ("(())".toList).count ')') ∧
    (∃ i, _get_end_of_first_term "(())".toList = .ok i ∧ ("(())".toList)[i]? = some ')' ∧
      parenBal (("(())".toList).take (i+1)) = 0 ∧
      ∀ j < i, 0 < parenBal (("(())".toList).take (j+1))) :=
  ⟨⟨by decide, by decide, by decide⟩,
    (C4_get_end_of_first_term_spec "(())".toList).1 (by decide) (by decide) (by decide)⟩

/-- The literal `Piecewise` marker searched for by the rewriter. -/
def pwMarker : List Char := "Piecewise".toList

/-- Python `'Piecewise' in s` (substring containment). -/
def containsPW : List Char → Bool
  | [] => false
  | c :: rest => pwMarker.isPrefixOf (c :: rest) || containsPW rest

/-- Python `s.index('Piecewise')` (index of the first occurrence). -/
def idxOfPW : List Char → Nat
  | [] => 0
  | c :: rest => if pwMarker.isPrefixOf (c :: rest) then 0 else idxOfPW rest + 1

/-- The wrapped catch-all condition `'(True)'` (source line 309). -/
def tTrue : List Char := "(True)".toList

/-- The `' + '` separator of source line 317. -/
def sepPlus : List Char := " + ".toList

/-- The `' | '` separator of source line 315. -/
def sepBar : List Char := " | ".toList

/-- The balance test of source line 294: both sides of the comma at `idx`
have equal opening- and closing-parenthesis counts. -/
def balancedAtB (term : List Char) (idx : Nat) : Bool :=
  ((term.take idx).count '(' = (term.take idx).count ')') &&
    ((term.drop (idx+1)).count '(' = (term.drop (idx+1)).count ')')

/-- Scan of positions `k, k+1, ...` (at most `fuel` of them) for a comma whose
two sides are balanced. -/
def findBalCommaGo (term : List Char) (k : Nat) : Nat → Option Nat
  | 0 => none
  | fuel + 1 =>
    if term[k]? = some ',' ∧ balancedAtB term k = true then some k
    else findBalCommaGo term (k+1) fuel

/-- The first position holding a comma whose two sides are balanced
(the `for idx in comma_idxs ... break` search of source lines 292-295;
positions past the end of the string never hold a comma, so scanning
`term.length` positions is the whole scan). -/
def findBalCommaFrom (term : List Char) (k : Nat) : Option Nat :=
  findBalCommaGo term k (term.length - k)

/-- The comma-splitting step of source lines 290-297: assert that at least one
comma exists, then take the first comma at which both sides have balanced
parenthesis counts; raise the malformed-string error if no comma qualifies. -/
def commaSplit (term : List Char) : Except String Nat :=
  if term.count ',' = 0 then .error "assert failed: len(comma_idxs) >= 1"
  else
    match findBalCommaFrom term 0 with
    | some k => .ok k
    | none => .error "Malformed string"

/-- Python `sep.join(parts)`. -/
def joinSep (sep : List Char) : List (List Char) → List Char
  | [] => []
  | [p] => p
  | p :: q :: rest => p ++ (sep ++ joinSep sep (q :: rest))

/-- The replacement guard of source line 315: the negated disjunction of the
(already wrapped) non-catch-all conditions, in their original order. -/
def newTrueCond (pieces : List (List Char × List Char)) : List Char :=
  "(not (".toList ++
    (joinSep sepBar ((pieces.filter (fun p => p.2 ≠ tTrue)).map (fun p => p.2)) ++ "))".toList)

/-- The flat-sum emission of source lines 306-317, after the catch-all count
has been checked: replace the catch-all condition by the negated disjunction
of its siblings and emit the parenthesized sum of `expression*condition`
products. -/
def assemblePieces (pieces : List (List Char × List Char)) : List Char :=
  '(' :: (joinSep sepPlus
    (pieces.map (fun p => p.1 ++ ('*' :: (if p.2 = tTrue then newTrueCond pieces else p.2))))
    ++ [')'])

mutual

/-- Embedding of `parse_piecewise_heaviside_into_string` (source lines
232-319): strip spaces, assert non-emptiness, return unchanged when no
`Piecewise` marker occurs, otherwise run the scanning loop.  The `fuel`
argument only bounds the recursion depth; every loop iteration of the source
consumes part of the string, and all theorems below supply enough fuel. -/
def parsePWFull (fuel : Nat) (s : List Char) : Except String (List Char) :=
  match fuel with
  | 0 => .error "fuel exhausted"
  | fuel + 1 =>
    if (s.filter (fun c => c ≠ ' ')).length = 0 then
      .error "assert failed: len(str_to_parse) > 0"
    else if containsPW (s.filter (fun c => c ≠ ' ')) = false then
      .ok (s.filter (fun c => c ≠ ' '))
    else parsePWCore fuel (s.filter (fun c => c ≠ ' '))
termination_by structural fuel

/-- The `while len(str_to_parse) > 0` loop of source lines 267-317, returning
the concatenation of the fragments accumulated in `new_str_fragments`. -/
def parsePWCore (fuel : Nat) (s : List Char) : Except String (List Char) :=
  match fuel with
  | 0 => .error "fuel exhausted"
  | fuel + 1 =>
    if s.length = 0 then .ok []
    else if containsPW s = false then .ok s
    else
      match _get_end_of_first_term (s.drop (idxOfPW s + 9)) with
      | .error e => .error e
      | .ok i =>
        match parsePiecesGo fuel (((s.drop (idxOfPW s + 9)).take i).drop 1) [] with
        | .error e => .error e
        | .ok pieces =>
          if pieces.countP (fun p => p.2 = tTrue) = 1 then
            match parsePWCore fuel ((s.drop (idxOfPW s + 9)).drop (i + 1)) with
            | .error e => .error e
            | .ok tailStr => .ok (s.take (idxOfPW s) ++ assemblePieces pieces ++ tailStr)
          else .error "assert failed: count_true == 1"
termination_by structural fuel

/-- The inner `while len(piecewise) > 0` loop of source lines 281-304:
extract each parenthesized `(expression, condition)` term, split it at the
first balanced comma, recursively rewrite expressions that contain a nested
`Piecewise`, and wrap atomic expressions and all conditions in parentheses. -/
def parsePiecesGo (fuel : Nat) (piecewise : List Char)
    (acc : List (List Char × List Char)) : Except String (List (List Char × List Char)) :=
  match fuel with
  | 0 => .error "fuel exhausted"
  | fuel + 1 =>
    if piecewise.length = 0 then .ok acc
    else
      match _get_end_of_first_term piecewise with
      | .error e => .error e
      | .ok i =>
        if (piecewise.drop (i + 1)).length ≠ 0 ∧ (piecewise.drop (i + 1)).head? ≠ some ',' then
          .error "Malformed string"
        else
          match commaSplit ((piecewise.take i).drop 1) with
          | .error e => .error e
          | .ok idx =>
            if containsPW (((piecewise.take i).drop 1).take idx) then
              match parsePWFull fuel (((piecewise.take i).drop 1).take idx) with
              | .error e => .error e
              | .ok r =>
                parsePiecesGo fuel (piecewise.drop (i + 1)).tail
                  (acc ++ [(r, '(' :: ((((piecewise.take i).drop 1).drop (idx + 1)) ++ [')']))])
            else
              parsePiecesGo fuel (piecewise.drop (i + 1)).tail
                (acc ++ [('(' :: ((((piecewise.take i).drop 1).take idx) ++ [')']),
                  '(' :: ((((piecewise.take i).drop 1).drop (idx + 1)) ++ [')']))])
termination_by structural fuel

end

/-- `parse_piecewise_heaviside_into_string` with enough fuel for its input
(every level of the source recursion works on a strictly shorter string). -/
def parse_piecewise_heaviside_into_string (s : List Char) : Except String (List Char) :=
  parsePWFull (s.length + 2) s

example : parse_piecewise_heaviside_into_string "1 + 2".toList = .ok "1+2".toList := by decide

example : parse_piecewise_heaviside_into_string "Piecewise((1,True))".toList =
    .ok "((1)*(not ()))".toList := by decide

example : parse_piecewise_heaviside_into_string "Piecewise((0.0,t<0),(1.0,t>1.0),(0.5,True))".toList =
    .ok "((0.0)*(t<0) + (1.0)*(t>1.0) + (0.5)*(not ((t<0) | (t>1.0))))".toList := by decide

/-- Running-balance check: every nonempty prefix of the string keeps `d` plus
its balance nonnegative (well-nestedness relative to a start depth `d`). -/
def wnFrom (d : Int) : List Char → Bool
  | [] => true
  | c :: r => (0 ≤ d + charBal c) && wnFrom (d + charBal c) r

/-- Comma-guardedness: every comma of the string sits at strictly positive
depth relative to a start depth `d`. -/
def cgFrom (d : Int) : List Char → Bool
  | [] => true
  | c :: r => (if c = ',' then decide (0 < d) else true) && cgFrom (d + charBal c) r

lemma wnFrom_append (a : List Char) : ∀ (b : List Char) (d : Int),
    wnFrom d (a ++ b) = (wnFrom d a && wnFrom (d + parenBal a) b) := by
  induction a with
  | nil => intro b d; simp [wnFrom, parenBal]
  | cons c r ih =>
    intro b d
    simp only [List.cons_append, wnFrom, List.append_eq, ih, parenBal_cons,
      Bool.and_assoc, add_assoc]

lemma cgFrom_append (a : List Char) : ∀ (b : List Char) (d : Int),
    cgFrom d (a ++ b) = (cgFrom d a && cgFrom (d + parenBal a) b) := by
  induction a with
  | nil => intro b d; simp [cgFrom, parenBal]
  | cons c r ih =>
    intro b d
    simp only [List.cons_append, cgFrom, List.append_eq, ih, parenBal_cons,
      Bool.and_assoc, add_assoc]

lemma wnFrom_mono (s : List Char) : ∀ d d' : Int, d ≤ d' →
    wnFrom d s = true → wnFrom d' s = true := by
  induction s with
  | nil => intro d d' _ _; rfl
  | cons c r ih =>
    intro d d' hdd h
    simp only [wnFrom, Bool.and_eq_true, decide_eq_true_eq] at h ⊢
    obtain ⟨h1, h2⟩ := h
    exact ⟨by omega, ih _ _ (by omega) h2⟩

lemma cgFrom_mono (s : List Char) : ∀ d d' : Int, d ≤ d' →
    cgFrom d s = true → cgFrom d' s = true := by
  induction s with
  | nil => intro d d' _ _; rfl
  | cons c r ih =>
    intro d d' hdd h
    simp only [cgFrom, Bool.and_eq_true] at h ⊢
    obtain ⟨h1, h2⟩ := h
    refine ⟨?_, ih _ _ (by omega) h2⟩
    by_cases hc : c = ','
    · subst hc
      rw [if_pos rfl, decide_eq_true_eq] at h1
      rw [if_pos rfl, decide_eq_true_eq]
      omega
    · simp [hc]

lemma cgFrom_spec (s : List Char) : ∀ d : Int, cgFrom d s = true →
    ∀ k, s[k]? = some ',' → 0 < d + parenBal (s.take k) := by
  induction s with
  | nil => intro d _ k hk; simp at hk
  | cons c r ih =>
    intro d h k hk
    simp only [cgFrom, Bool.and_eq_true] at h
    cases k with
    | zero =>
      simp only [List.getElem?_cons_zero, Option.some.injEq] at hk
      subst hk
      simp only [if_pos rfl, decide_eq_true_eq] at h
      simpa [parenBal] using h.1
    | succ k' =>
      have := ih (d + charBal c) h.2 k' (by simpa using hk)
      rw [List.take_succ_cons, parenBal_cons]
      omega

/-- The scanning loop applied to `body ++ ')' :: tail` where `body` never
closes the outer parenthesis: it stops exactly at the appended `')'`. -/
lemma gefftGo_append (body : List Char) : ∀ (d i : Nat) (tail : List Char), 1 ≤ d →
    wnFrom ((d : Int) - 1) body = true → (d : Int) + parenBal body = 1 →
    gefftGo (body ++ ')' :: tail) d i = .ok (i + body.length) := by
  induction body with
  | nil =>
    intro d i tail hd hw hb
    simp only [parenBal] at hb
    have hd1 : d = 1 := by omega
    subst hd1
    simpa using gefftGo_cons_close_one tail i
  | cons c r ih =>
    intro d i tail hd hw hb
    rw [parenBal_cons] at hb
    simp only [wnFrom, Bool.and_eq_true, decide_eq_true_eq] at hw
    obtain ⟨hw1, hw2⟩ := hw
    by_cases hc : c = '('
    · subst hc
      rw [charBal_open] at hw1 hw2 hb
      rw [List.cons_append, gefftGo_cons_open]
      rw [ih (d+1) (i+1) tail (by omega)
        (by rw [show ((d+1 : Nat) : Int) - 1 = (d : Int) - 1 + 1 by push_cast; ring]; exact hw2)
        (by push_cast; omega)]
      congr 1
      simp [List.length_cons]
      omega
    · by_cases hc' : c = ')'
      · subst hc'
        rw [charBal_close] at hw1 hw2 hb
        have hd2 : 2 ≤ d := by omega
        rw [List.cons_append, gefftGo_cons_close_big _ _ _ hd2]
        rw [ih (d-1) (i+1) tail (by omega)
          (by rw [show ((d-1 : Nat) : Int) - 1 = (d : Int) - 1 + -1 by omega]; exact hw2)
          (by rw [show ((d-1 : Nat) : Int) = (d : Int) - 1 by omega]; omega)]
        congr 1
        simp [List.length_cons]
        omega
      · have hb0 : charBal c = 0 := charBal_other hc hc'
        rw [hb0] at hw1 hw2 hb
        rw [List.cons_append, gefftGo_cons_other hc hc']
        rw [ih d (i+1) tail hd (by simpa using hw2) (by omega)]
        congr 1
        simp [List.length_cons]
        omega

/-- `_get_end_of_first_term` on a wrapped well-nested balanced body: it
returns the position of the closing parenthesis written right after `body`. -/
lemma gefft_wrapped (body tail : List Char) (hw : wnFrom 0 body = true)
    (hb : parenBal body = 0) (ht : parenBal tail = 0) :
    _get_end_of_first_term ('(' :: (body ++ ')' :: tail)) = .ok (body.length + 1) := by
  have hbal : parenBal ('(' :: (body ++ ')' :: tail)) = 0 := by
    rw [parenBal_cons, charBal_open, parenBal_append, parenBal_cons, charBal_close]
    omega
  have hcnt : (('(' :: (body ++ ')' :: tail)).count '(') = (('(' :: (body ++ ')' :: tail)).count ')') := by
    have := parenBal_eq_counts ('(' :: (body ++ ')' :: tail))
    omega
  have hlen : ¬ (('(' :: (body ++ ')' :: tail)).length < 2) := by
    simp only [List.length_cons, List.length_append]
    omega
  rw [_get_end_of_first_term, if_neg hlen, if_neg (not_not_intro hcnt),
    if_pos (show ('(' :: (body ++ ')' :: tail)).head? = some '(' from rfl)]
  rw [show ('(' :: (body ++ ')' :: tail)).tail = body ++ ')' :: tail from rfl]
  rw [gefftGo_append body 1 1 tail le_rfl (by simpa using hw) (by omega)]
  congr 1
  omega

lemma containsPW_of_isPrefixOf {s : List Char} (h : pwMarker.isPrefixOf s = true) :
    containsPW s = true := by
  cases s with
  | nil => exact absurd h (by decide)
  | cons c r => simp [containsPW, h]

lemma idxOfPW_of_isPrefixOf {s : List Char} (h : pwMarker.isPrefixOf s = true) :
    idxOfPW s = 0 := by
  cases s with
  | nil => rfl
  | cons c r => simp [idxOfPW, h]

lemma pwMarker_isPrefixOf_append (x : List Char) :
    pwMarker.isPrefixOf (pwMarker ++ x) = true :=
  List.isPrefixOf_iff_prefix.mpr (List.prefix_append _ _)

lemma prefix_trunc {p u v : List Char} (h : p <+: u ++ v) (hlen : p.length ≤ u.length) :
    p <+: u := by
  obtain ⟨t, ht⟩ := h
  have h2 : u.take p.length = p := by
    have h3 := congrArg (List.take p.length) ht
    rw [List.take_append_of_le_length le_rfl, List.take_length,
      List.take_append_of_le_length hlen] at h3
    exact h3.symm
  exact h2 ▸ List.take_prefix _ _

lemma mem_pwMarker_of_prefix_short {u y : List Char} {c : Char}
    (h : pwMarker <+: u ++ c :: y) (hlen : u.length < pwMarker.length) : c ∈ pwMarker := by
  obtain ⟨t, ht⟩ := h
  have h1 : (u ++ c :: y).take (u.length + 1) = u ++ [c] := by
    have := @List.take_append Char u (c :: y) 1
    simpa using this
  have h2 : (u ++ c :: y).take (u.length + 1) = pwMarker.take (u.length + 1) := by
    rw [← ht, List.take_append_of_le_length (by omega)]
  have h3 : c ∈ pwMarker.take (u.length + 1) := by
    rw [← h2, h1]
    exact List.mem_append_right _ (by simp)
  exact List.take_subset _ _ h3

/-- Splicing two marker-free strings with a character that does not occur in
the marker cannot create a marker occurrence. -/
lemma containsPW_append_sep {c : Char} (hc : c ∉ pwMarker) :
    ∀ x y : List Char, containsPW x = false → containsPW y = false →
    containsPW (x ++ c :: y) = false := by
  intro x
  induction x with
  | nil =>
    intro y _ hy
    rw [List.nil_append]
    show (pwMarker.isPrefixOf (c :: y) || containsPW y) = false
    rw [hy, Bool.or_false]
    by_contra hp
    rw [Bool.not_eq_false] at hp
    have h4 := List.isPrefixOf_iff_prefix.mp hp
    exact hc (@mem_pwMarker_of_prefix_short [] _ _ (by simpa using h4) (by decide))
  | cons a x' ih =>
    intro y hx hy
    have hx2 : pwMarker.isPrefixOf (a :: x') = false ∧ containsPW x' = false := by
      have h5 : (pwMarker.isPrefixOf (a :: x') || containsPW x') = false := hx
      simpa [Bool.or_eq_false_iff] using h5
    rw [List.cons_append]
    show (pwMarker.isPrefixOf (a :: (x' ++ c :: y)) || containsPW (x' ++ c :: y)) = false
    rw [ih y hx2.2 hy, Bool.or_false]
    by_contra hp
    rw [Bool.not_eq_false] at hp
    have hpre : pwMarker <+: (a :: x') ++ c :: y := by
      rw [List.cons_append]
      exact List.isPrefixOf_iff_prefix.mp hp
    by_cases hl : pwMarker.length ≤ (a :: x').length
    · have h5 := prefix_trunc hpre hl
      rw [← List.isPrefixOf_iff_prefix] at h5
      rw [h5] at hx2
      exact absurd hx2.1 (by simp)
    · exact hc (mem_pwMarker_of_prefix_short hpre (by omega))

/-- Splicing with any nonempty separator made of characters that do not occur
in the marker cannot create a marker occurrence. -/
lemma containsPW_append_sepList :
    ∀ (sep x y : List Char), sep ≠ [] → (∀ c ∈ sep, c ∉ pwMarker) →
    containsPW x = false → containsPW y = false →
    containsPW (x ++ (sep ++ y)) = false := by
  intro sep
  induction sep with
  | nil => intro x y h; exact absurd rfl h
  | cons c sep' ih =>
    intro x y _ hall hx hy
    have hc : c ∉ pwMarker := hall c (by simp)
    rcases sep' with _ | ⟨d, sep''⟩
    · simpa using containsPW_append_sep hc x y hx hy
    · have hy2 : containsPW ((d :: sep'') ++ y) = false := by
        have h6 := ih [] y (by simp) (fun c' hm => hall c' (by simp [hm])) rfl hy
        simpa using h6
      have h7 := containsPW_append_sep hc x ((d :: sep'') ++ y) hx hy2
      simpa using h7

lemma containsPW_wrap_paren {x : List Char} (hx : containsPW x = false) :
    containsPW ('(' :: (x ++ [')'])) = false := by
  have h1 : containsPW (x ++ ')' :: []) = false :=
    containsPW_append_sep (by decide) x [] hx rfl
  have h2 := containsPW_append_sep (show ('(') ∉ pwMarker by decide) [] (x ++ [')'])
    rfl (by simpa using h1)
  simpa using h2

lemma containsPW_joinSep (sep : List Char) (hne : sep ≠ [])
    (hall : ∀ c ∈ sep, c ∉ pwMarker) :
    ∀ parts : List (List Char), (∀ p ∈ parts, containsPW p = false) →
    containsPW (joinSep sep parts) = false := by
  intro parts
  induction parts with
  | nil => intro _; rfl
  | cons p rest ih =>
    intro hp
    rcases rest with _ | ⟨q, rest'⟩
    · simpa [joinSep] using hp p (by simp)
    · show containsPW (p ++ (sep ++ joinSep sep (q :: rest'))) = false
      exact containsPW_append_sepList sep p (joinSep sep (q :: rest')) hne hall
        (hp p (by simp)) (ih (fun r hr => hp r (by simp [hr])))

lemma containsPW_newTrueCond (pieces : List (List Char × List Char))
    (h : ∀ p ∈ pieces, containsPW p.2 = false) :
    containsPW (newTrueCond pieces) = false := by
  have hJ : containsPW (joinSep sepBar
      ((pieces.filter (fun p => p.2 ≠ tTrue)).map (fun p => p.2))) = false := by
    refine containsPW_joinSep sepBar (by decide) (by decide) _ ?_
    intro q hq
    obtain ⟨p, hp, rfl⟩ := List.mem_map.mp hq
    exact h p (List.mem_of_mem_filter hp)
  have h1 : containsPW (joinSep sepBar
      ((pieces.filter (fun p => p.2 ≠ tTrue)).map (fun p => p.2)) ++ "))".toList) = false := by
    have h8 := containsPW_append_sepList "))".toList _ [] (by decide) (by decide) hJ rfl
    simpa using h8
  have h2 := containsPW_append_sepList "(not (".toList [] _ (by decide) (by decide) rfl h1
  rw [newTrueCond]
  simpa using h2

lemma containsPW_assemblePieces (pieces : List (List Char × List Char))
    (h : ∀ p ∈ pieces, containsPW p.1 = false ∧ containsPW p.2 = false) :
    containsPW (assemblePieces pieces) = false := by
  have hparts : ∀ q ∈ pieces.map
      (fun p => p.1 ++ ('*' :: (if p.2 = tTrue then newTrueCond pieces else p.2))),
      containsPW q = false := by
    intro q hq
    obtain ⟨p, hp, rfl⟩ := List.mem_map.mp hq
    have hc2 : containsPW (if p.2 = tTrue then newTrueCond pieces else p.2) = false := by
      by_cases ht : p.2 = tTrue
      · simpa [ht] using containsPW_newTrueCond pieces (fun r hr => (h r hr).2)
      · simpa [ht] using (h p hp).2
    have h9 := containsPW_append_sepList ['*'] p.1 _ (by simp) (by decide) (h p hp).1 hc2
    simpa using h9
  have hJ := containsPW_joinSep sepPlus (by decide) (by decide) _ hparts
  have h1 : containsPW ((joinSep sepPlus (pieces.map
      (fun p => p.1 ++ ('*' :: (if p.2 = tTrue then newTrueCond pieces else p.2))))) ++ ')' :: []) = false :=
    containsPW_append_sep (by decide) _ [] hJ rfl
  have h2 := containsPW_append_sep (show ('(') ∉ pwMarker by decide) [] _ rfl h1
  rw [assemblePieces]
  simpa using h2

lemma findBalCommaGo_eq_some (term : List Char) (k0 : Nat)
    (hc : term[k0]? = some ',') (hb : balancedAtB term k0 = true)
    (hmin : ∀ j < k0, term[j]? = some ',' → balancedAtB term j = false) :
    ∀ fuel k, k ≤ k0 → k0 < k + fuel → findBalCommaGo term k fuel = some k0 := by
  intro fuel
  induction fuel with
  | zero => intro k h1 h2; omega
  | succ f ih =>
    intro k h1 h2
    by_cases hk : k = k0
    · subst hk
      rw [findBalCommaGo, if_pos ⟨hc, hb⟩]
    · have hk2 : k < k0 := by omega
      have hne : ¬ (term[k]? = some ',' ∧ balancedAtB term k = true) := by
        rintro ⟨hcc, hbb⟩
        rw [hmin k hk2 hcc] at hbb
        simp at hbb
      rw [findBalCommaGo, if_neg hne]
      exact ih (k+1) (by omega) (by omega)

lemma commaSplit_eq_ok (term : List Char) (k0 : Nat)
    (hc : term[k0]? = some ',') (hb : balancedAtB term k0 = true)
    (hmin : ∀ j < k0, term[j]? = some ',' → balancedAtB term j = false) :
    commaSplit term = .ok k0 := by
  have hk0 : k0 < term.length := by
    rcases List.getElem?_eq_some_iff.mp hc with ⟨h, _⟩
    exact h
  have hcount : ¬ (term.count ',' = 0) := by
    have hmem : ',' ∈ term := by
      rcases List.getElem?_eq_some_iff.mp hc with ⟨h, he⟩
      exact he ▸ List.getElem_mem h
    have := List.count_pos_iff.mpr hmem
    omega
  rw [commaSplit, if_neg hcount, findBalCommaFrom, Nat.sub_zero,
    findBalCommaGo_eq_some term k0 hc hb hmin term.length 0 (by omega) (by omega)]

lemma findBalCommaGo_eq_none (term : List Char)
    (h : ∀ j, term[j]? = some ',' → balancedAtB term j = false) :
    ∀ fuel k, findBalCommaGo term k fuel = none := by
  intro fuel
  induction fuel with
  | zero => intro k; rfl
  | succ f ih =>
    intro k
    have hne : ¬ (term[k]? = some ',' ∧ balancedAtB term k = true) := by
      rintro ⟨hcc, hbb⟩
      rw [h k hcc] at hbb
      simp at hbb
    rw [findBalCommaGo, if_neg hne]
    exact ih (k+1)

lemma commaSplit_eq_error (term : List Char)
    (h : ∀ j, term[j]? = some ',' → balancedAtB term j = false) :
    ∃ e, commaSplit term = .error e := by
  by_cases hc : term.count ',' = 0
  · exact ⟨_, by rw [commaSplit, if_pos hc]⟩
  · refine ⟨"Malformed string", ?_⟩
    rw [commaSplit, if_neg hc, findBalCommaFrom, Nat.sub_zero, findBalCommaGo_eq_none term h]

mutual
/-- Abstract form of a space-free symbolic expression string fed to the
rewriter: either an atomic expression containing no conditional, or a
`Piecewise` group. -/
inductive PExpr : Type where
  | atom : List Char → PExpr
  | pw : Pieces → PExpr

/-- The ordered branch list of a `Piecewise` group: each branch holds a
branch expression and a guard string (the catch-all guard is the literal
`True`). -/
inductive Pieces : Type where
  | nil : Pieces
  | cons : PExpr → List Char → Pieces → Pieces
end

/-- The literal catch-all guard `True`. -/
def trueLit : List Char := "True".toList

mutual
/-- Printed (space-free) string of an expression, in the sympy form the
rewriter receives: `Piecewise((e1,g1),(e2,g2),...)`. -/
def printE : PExpr → List Char
  | .atom s => s
  | .pw ps => pwMarker ++ ('(' :: (printPieces ps ++ [')']))

/-- Printed comma-separated branch list. -/
def printPieces : Pieces → List Char
  | .nil => []
  | .cons e g .nil => '(' :: ((printE e ++ ',' :: g) ++ [')'])
  | .cons e g (.cons e2 g2 ps) =>
      ('(' :: ((printE e ++ ',' :: g) ++ [')'])) ++ ',' :: printPieces (.cons e2 g2 ps)
end

mutual
/-- The string the rewriter produces for one branch expression: atomic
expressions get wrapped in parentheses (source line 304), nested `Piecewise`
branches are rewritten recursively (source line 302). -/
def branchOut : PExpr → List Char
  | .atom s => '(' :: (s ++ [')'])
  | .pw qs => assemblePieces (expPieces qs)

/-- The `pieces` list (source lines 280-304) the rewriter builds for a
printed branch list: rewritten/wrapped expression and wrapped condition. -/
def expPieces : Pieces → List (List Char × List Char)
  | .nil => []
  | .cons e g ps => (branchOut e, '(' :: (g ++ [')'])) :: expPieces ps
end

/-- The rewriter output for a whole expression. -/
def rewriteE : PExpr → List Char
  | .atom s => s
  | .pw ps => assemblePieces (expPieces ps)

/-- No space characters (the source strips spaces first). -/
def noSpace (s : List Char) : Bool := s.all (fun c => c ≠ ' ')

/-- Well-formedness of an atomic expression or guard string: no `Piecewise`
marker, balanced and well-nested parentheses, commas only inside
parentheses, and no spaces. -/
def strOKb (s : List Char) : Bool :=
  !containsPW s && decide (parenBal s = 0) && wnFrom 0 s && cgFrom 0 s && noSpace s

mutual
/-- Well-formedness of an expression tree. -/
def wfE : PExpr → Bool
  | .atom s => strOKb s
  | .pw ps => wfP ps

/-- Well-formedness of a branch list. -/
def wfP : Pieces → Bool
  | .nil => true
  | .cons e g ps => wfE e && strOKb g && wfP ps
end

/-- Number of catch-all (`True`) guards in a branch list. -/
def countTrueG : Pieces → Nat
  | .nil => 0
  | .cons _ g ps => (if g = trueLit then 1 else 0) + countTrueG ps

mutual
/-- Every `Piecewise` group in the tree has exactly one catch-all guard. -/
def oneTE : PExpr → Bool
  | .atom _ => true
  | .pw ps => decide (countTrueG ps = 1) && oneTP ps

/-- Every group nested inside some branch has exactly one catch-all guard. -/
def oneTP : Pieces → Bool
  | .nil => true
  | .cons e _ ps => oneTE e && oneTP ps
end

lemma charBal_comma : charBal ',' = 0 := by decide

lemma strOKb_parts {s : List Char} (h : strOKb s = true) :
    containsPW s = false ∧ parenBal s = 0 ∧ wnFrom 0 s = true ∧
      cgFrom 0 s = true ∧ noSpace s = true := by
  simp only [strOKb, Bool.and_eq_true, Bool.not_eq_true', decide_eq_true_eq] at h
  tauto

lemma wfP_cons_parts {e : PExpr} {g : List Char} {ps : Pieces}
    (h : wfP (.cons e g ps) = true) :
    wfE e = true ∧ strOKb g = true ∧ wfP ps = true := by
  have h2 : (wfE e && strOKb g && wfP ps) = true := h
  simp only [Bool.and_eq_true] at h2
  tauto

lemma oneTP_cons_parts {e : PExpr} {g : List Char} {ps : Pieces}
    (h : oneTP (.cons e g ps) = true) : oneTE e = true ∧ oneTP ps = true := by
  have h2 : (oneTE e && oneTP ps) = true := h
  simp only [Bool.and_eq_true] at h2
  tauto

lemma oneTE_pw_parts {ps : Pieces} (h : oneTE (.pw ps) = true) :
    countTrueG ps = 1 ∧ oneTP ps = true := by
  have h2 : (decide (countTrueG ps = 1) && oneTP ps) = true := h
  simp only [Bool.and_eq_true, decide_eq_true_eq] at h2
  tauto

mutual
lemma parenBal_printE : ∀ e : PExpr, wfE e = true → parenBal (printE e) = 0
  | .atom s, h => (strOKb_parts h).2.1
  | .pw ps, h => by
    have hp := parenBal_printPieces ps h
    show parenBal (pwMarker ++ ('(' :: (printPieces ps ++ [')']))) = 0
    rw [parenBal_append, parenBal_cons, charBal_open, parenBal_append, hp,
      show parenBal pwMarker = 0 by decide,
      show parenBal [')'] = -1 by decide]
    ring

lemma parenBal_printPieces : ∀ ps : Pieces, wfP ps = true → parenBal (printPieces ps) = 0
  | .nil, _ => rfl
  | .cons e g .nil, h => by
    obtain ⟨he, hg, _⟩ := wfP_cons_parts h
    show parenBal ('(' :: ((printE e ++ ',' :: g) ++ [')'])) = 0
    rw [parenBal_cons, charBal_open, parenBal_append, parenBal_append, parenBal_cons,
      charBal_comma, parenBal_printE e he, (strOKb_parts hg).2.1,
      show parenBal [')'] = -1 by decide]
    ring
  | .cons e g (.cons e2 g2 ps), h => by
    obtain ⟨he, hg, hrest⟩ := wfP_cons_parts h
    have hr := parenBal_printPieces (.cons e2 g2 ps) hrest
    show parenBal (('(' :: ((printE e ++ ',' :: g) ++ [')'])) ++
      ',' :: printPieces (.cons e2 g2 ps)) = 0
    simp only [List.append_eq, List.cons_append, List.append_assoc, parenBal_append,
      parenBal_cons, parenBal, charBal_comma, charBal_open, charBal_close,
      parenBal_printE e he, (strOKb_parts hg).2.1, hr]
    ring
end

lemma wnFrom_no_paren (s : List Char) (hs : ∀ c ∈ s, charBal c = 0) :
    ∀ d : Int, 0 ≤ d → wnFrom d s = true := by
  induction s with
  | nil => intro d _; rfl
  | cons c r ih =>
    intro d hd
    have hc := hs c (by simp)
    simp only [wnFrom, hc, add_zero, Bool.and_eq_true, decide_eq_true_eq]
    exact ⟨hd, ih (fun c' hm => hs c' (by simp [hm])) d hd⟩

lemma cgFrom_no_comma (s : List Char) (hs : ∀ c ∈ s, c ≠ ',') :
    ∀ d : Int, cgFrom d s = true := by
  induction s with
  | nil => intro d; rfl
  | cons c r ih =>
    intro d
    have hc := hs c (by simp)
    simp only [cgFrom, hc, if_neg hc, Bool.true_and]
    exact ih (fun c' hm => hs c' (by simp [hm])) _

lemma wnFrom_cons (d : Int) (c : Char) (r : List Char) :
    wnFrom d (c :: r) = (decide (0 ≤ d + charBal c) && wnFrom (d + charBal c) r) := rfl

lemma cgFrom_cons (d : Int) (c : Char) (r : List Char) :
    cgFrom d (c :: r) =
      ((if c = ',' then decide (0 < d) else true) && cgFrom (d + charBal c) r) := rfl

lemma wnFrom_append_of (x y : List Char) (d : Int) (hx : wnFrom d x = true)
    (hy : wnFrom (d + parenBal x) y = true) : wnFrom d (x ++ y) = true := by
  rw [wnFrom_append, hx, hy]
  rfl

lemma wnFrom_cons_of (c : Char) (r : List Char) (d : Int) (h1 : 0 ≤ d + charBal c)
    (h2 : wnFrom (d + charBal c) r = true) : wnFrom d (c :: r) = true := by
  rw [wnFrom_cons, h2, Bool.and_true, decide_eq_true_eq]
  exact h1

lemma cgFrom_append_of (x y : List Char) (d : Int) (hx : cgFrom d x = true)
    (hy : cgFrom (d + parenBal x) y = true) : cgFrom d (x ++ y) = true := by
  rw [cgFrom_append, hx, hy]
  rfl

lemma cgFrom_cons_of (c : Char) (r : List Char) (d : Int) (h1 : c = ',' → 0 < d)
    (h2 : cgFrom (d + charBal c) r = true) : cgFrom d (c :: r) = true := by
  rw [cgFrom_cons, h2, Bool.and_true]
  by_cases hc : c = ','
  · simp [hc, h1 hc]
  · simp [hc]

lemma parenBal_piece_aux {pe g : List Char} (hbe : parenBal pe = 0) (hbg : parenBal g = 0) :
    parenBal ('(' :: ((pe ++ ',' :: g) ++ [')'])) = 0 := by
  simp only [parenBal_cons, parenBal_append, charBal_open, charBal_comma, charBal_close,
    parenBal, hbe, hbg]
  ring

lemma wnFrom_piece_aux {pe g : List Char} (hpe : ∀ d : Int, 0 ≤ d → wnFrom d pe = true)
    (hbe : parenBal pe = 0) (hg : strOKb g = true) (d : Int) (hd : 0 ≤ d) :
    wnFrom d ('(' :: ((pe ++ ',' :: g) ++ [')'])) = true := by
  obtain ⟨_, hgb, hgw, _, _⟩ := strOKb_parts hg
  apply wnFrom_cons_of
  · rw [charBal_open]; omega
  · rw [charBal_open]
    apply wnFrom_append_of
    · apply wnFrom_append_of
      · exact hpe (d+1) (by omega)
      · rw [hbe, add_zero]
        apply wnFrom_cons_of
        · rw [charBal_comma]; omega
        · rw [charBal_comma, add_zero]
          exact wnFrom_mono g 0 (d+1) (by omega) hgw
    · rw [parenBal_append, hbe, parenBal_cons, charBal_comma, hgb]
      apply wnFrom_cons_of
      · rw [charBal_close]; omega
      · rfl

lemma cgFrom_piece_aux {pe g : List Char} (hpe : ∀ d : Int, 0 ≤ d → cgFrom d pe = true)
    (hbe : parenBal pe = 0) (hg : strOKb g = true) (d : Int) (hd : 0 ≤ d) :
    cgFrom d ('(' :: ((pe ++ ',' :: g) ++ [')'])) = true := by
  obtain ⟨_, hgb, _, hgc, _⟩ := strOKb_parts hg
  apply cgFrom_cons_of
  · intro hcon; exact absurd hcon (by decide)
  · rw [charBal_open]
    apply cgFrom_append_of
    · apply cgFrom_append_of
      · exact hpe (d+1) (by omega)
      · rw [hbe, add_zero]
        apply cgFrom_cons_of
        · intro _; omega
        · rw [charBal_comma, add_zero]
          exact cgFrom_mono g 0 (d+1) (by omega) hgc
    · apply cgFrom_cons_of
      · intro hcon; exact absurd hcon (by decide)
      · rfl

mutual
lemma wn_printE : ∀ e : PExpr, wfE e = true → ∀ d : Int, 0 ≤ d → wnFrom d (printE e) = true
  | .atom s, h, d, hd => wnFrom_mono s 0 d hd (strOKb_parts h).2.2.1
  | .pw ps, h, d, hd => by
    show wnFrom d (pwMarker ++ ('(' :: (printPieces ps ++ [')']))) = true
    apply wnFrom_append_of
    · exact wnFrom_no_paren pwMarker (by decide) d hd
    · rw [show parenBal pwMarker = 0 by decide, add_zero]
      apply wnFrom_cons_of
      · rw [charBal_open]; omega
      · rw [charBal_open]
        apply wnFrom_append_of
        · exact wn_printPieces ps h (d+1) (by omega)
        · rw [parenBal_printPieces ps h, add_zero]
          apply wnFrom_cons_of
          · rw [charBal_close]; omega
          · rfl

lemma wn_printPieces : ∀ ps : Pieces, wfP ps = true → ∀ d : Int, 0 ≤ d →
    wnFrom d (printPieces ps) = true
  | .nil, _, _, _ => rfl
  | .cons e g .nil, h, d, hd => by
    obtain ⟨he, hg, _⟩ := wfP_cons_parts h
    show wnFrom d ('(' :: ((printE e ++ ',' :: g) ++ [')'])) = true
    exact wnFrom_piece_aux (wn_printE e he) (parenBal_printE e he) hg d hd
  | .cons e g (.cons e2 g2 ps), h, d, hd => by
    obtain ⟨he, hg, hrest⟩ := wfP_cons_parts h
    show wnFrom d (('(' :: ((printE e ++ ',' :: g) ++ [')'])) ++
      ',' :: printPieces (.cons e2 g2 ps)) = true
    apply wnFrom_append_of
    · exact wnFrom_piece_aux (wn_printE e he) (parenBal_printE e he) hg d hd
    · rw [parenBal_piece_aux (parenBal_printE e he) (strOKb_parts hg).2.1, add_zero]
      apply wnFrom_cons_of
      · rw [charBal_comma]; omega
      · rw [charBal_comma, add_zero]
        exact wn_printPieces (.cons e2 g2 ps) hrest d hd
end

mutual
lemma cg_printE : ∀ e : PExpr, wfE e = true → ∀ d : Int, 0 ≤ d → cgFrom d (printE e) = true
  | .atom s, h, d, hd => cgFrom_mono s 0 d hd (strOKb_parts h).2.2.2.1
  | .pw ps, h, d, hd => by
    show cgFrom d (pwMarker ++ ('(' :: (printPieces ps ++ [')']))) = true
    apply cgFrom_append_of
    · exact cgFrom_no_comma pwMarker (by decide) d
    · rw [show parenBal pwMarker = 0 by decide, add_zero]
      apply cgFrom_cons_of
      · intro hcon; exact absurd hcon (by decide)
      · rw [charBal_open]
        apply cgFrom_append_of
        · exact cg_printPieces ps h _ (by omega)
        · apply cgFrom_cons_of
          · intro hcon; exact absurd hcon (by decide)
          · rfl

lemma cg_printPieces : ∀ ps : Pieces, wfP ps = true → ∀ d : Int, 1 ≤ d →
    cgFrom d (printPieces ps) = true
  | .nil, _, _, _ => rfl
  | .cons e g .nil, h, d, hd => by
    obtain ⟨he, hg, _⟩ := wfP_cons_parts h
    show cgFrom d ('(' :: ((printE e ++ ',' :: g) ++ [')'])) = true
    exact cgFrom_piece_aux (cg_printE e he) (parenBal_printE e he) hg d (by omega)
  | .cons e g (.cons e2 g2 ps), h, d, hd => by
    obtain ⟨he, hg, hrest⟩ := wfP_cons_parts h
    show cgFrom d (('(' :: ((printE e ++ ',' :: g) ++ [')'])) ++
      ',' :: printPieces (.cons e2 g2 ps)) = true
    apply cgFrom_append_of
    · exact cgFrom_piece_aux (cg_printE e he) (parenBal_printE e he) hg d (by omega)
    · rw [parenBal_piece_aux (parenBal_printE e he) (strOKb_parts hg).2.1, add_zero]
      apply cgFrom_cons_of
      · intro _; omega
      · rw [charBal_comma, add_zero]
        exact cg_printPieces (.cons e2 g2 ps) hrest d hd
end

mutual
lemma noSpace_printE : ∀ e : PExpr, wfE e = true → noSpace (printE e) = true
  | .atom s, h => (strOKb_parts h).2.2.2.2
  | .pw ps, h => by
    show noSpace (pwMarker ++ ('(' :: (printPieces ps ++ [')']))) = true
    simp only [noSpace, List.all_append, List.all_cons, Bool.and_eq_true]
    exact ⟨by decide, by decide, (by exact noSpace_printPieces ps h), by decide⟩

lemma noSpace_printPieces : ∀ ps : Pieces, wfP ps = true → noSpace (printPieces ps) = true
  | .nil, _ => rfl
  | .cons e g .nil, h => by
    obtain ⟨he, hg, _⟩ := wfP_cons_parts h
    show noSpace ('(' :: ((printE e ++ ',' :: g) ++ [')'])) = true
    simp only [noSpace, List.all_append, List.all_cons, Bool.and_eq_true]
    exact ⟨by decide, ⟨(by exact noSpace_printE e he), by decide,
      (strOKb_parts hg).2.2.2.2⟩, by decide⟩
  | .cons e g (.cons e2 g2 ps), h => by
    obtain ⟨he, hg, hrest⟩ := wfP_cons_parts h
    show noSpace (('(' :: ((printE e ++ ',' :: g) ++ [')'])) ++
      ',' :: printPieces (.cons e2 g2 ps)) = true
    simp only [noSpace, List.all_append, List.all_cons, Bool.and_eq_true]
    exact ⟨⟨by decide, ⟨(by exact noSpace_printE e he), by decide,
      (strOKb_parts hg).2.2.2.2⟩, by decide⟩,
      by decide, (by exact noSpace_printPieces (.cons e2 g2 ps) hrest)⟩
end

mutual
lemma noPW_branchOut : ∀ e : PExpr, wfE e = true → containsPW (branchOut e) = false
  | .atom s, h => containsPW_wrap_paren (strOKb_parts h).1
  | .pw qs, h => containsPW_assemblePieces _ (noPW_expPieces qs h)

lemma noPW_expPieces : ∀ ps : Pieces, wfP ps = true →
    ∀ p ∈ expPieces ps, containsPW p.1 = false ∧ containsPW p.2 = false
  | .nil, _, p, hp => absurd hp (by simp [expPieces])
  | .cons e g ps, h, p, hp => by
    obtain ⟨he, hg, hrest⟩ := wfP_cons_parts h
    rcases (by simpa [expPieces] using hp :
        p = (branchOut e, '(' :: (g ++ [')'])) ∨ p ∈ expPieces ps) with h1 | h1
    · subst h1
      exact ⟨noPW_branchOut e he, containsPW_wrap_paren (strOKb_parts hg).1⟩
    · exact noPW_expPieces ps hrest p h1
end

lemma filter_eq_self_of_noSpace {s : List Char} (h : noSpace s = true) :
    s.filter (fun c => c ≠ ' ') = s := by
  rw [List.filter_eq_self]
  exact List.all_eq_true.mp h

lemma extract_wrapped (body tail : List Char) :
    (('(' :: (body ++ ')' :: tail)).take (body.length + 1)).drop 1 = body ∧
    ('(' :: (body ++ ')' :: tail)).drop (body.length + 1 + 1) = tail := by
  constructor
  · rw [List.take_succ_cons, List.drop_succ_cons, List.drop_zero,
      List.take_append_of_le_length le_rfl, List.take_length]
  · rw [List.drop_succ_cons]
    have := @List.drop_append Char body (')' :: tail) 1
    simpa using this

lemma tTrue_decomp : tTrue = '(' :: (trueLit ++ [')']) := by decide

lemma wrap_eq_tTrue_iff (g : List Char) : ('(' :: (g ++ [')']) = tTrue) ↔ g = trueLit := by
  rw [tTrue_decomp]
  constructor
  · intro h
    have h2 : g ++ [')'] = trueLit ++ [')'] := by
      injection h
    exact (List.append_left_inj _).mp h2
  · intro h; rw [h]

lemma countP_expPieces : ∀ ps : Pieces,
    (expPieces ps).countP (fun p => p.2 = tTrue) = countTrueG ps
  | .nil => rfl
  | .cons e g ps => by
    show List.countP _ ((branchOut e, '(' :: (g ++ [')'])) :: expPieces ps) = _
    rw [List.countP_cons, countP_expPieces ps, countTrueG]
    by_cases hg : g = trueLit
    · simp [wrap_eq_tTrue_iff, hg]
      omega
    · simp [wrap_eq_tTrue_iff, hg]

lemma commaSplit_piece (e : PExpr) (g : List Char) (he : wfE e = true) (hg : strOKb g = true) :
    commaSplit (printE e ++ ',' :: g) = .ok (printE e).length := by
  apply commaSplit_eq_ok
  · rw [List.getElem?_append]
    simp
  · have h1 : (printE e ++ ',' :: g).take (printE e).length = printE e := List.take_left _ _
    have h2 : (printE e ++ ',' :: g).drop ((printE e).length + 1) = g := by
      have := @List.drop_append Char (printE e) (',' :: g) 1
      simpa using this
    rw [balancedAtB, h1, h2]
    have hbe := parenBal_printE e he
    have hbg := (strOKb_parts hg).2.1
    have ce := parenBal_eq_counts (printE e)
    have cg2 := parenBal_eq_counts g
    simp only [Bool.and_eq_true, decide_eq_true_eq]
    omega
  · intro j hj hcomma
    have hj2 : (printE e)[j]? = some ',' := by
      rw [List.getElem?_append, if_pos hj] at hcomma
      exact hcomma
    have htake : (printE e ++ ',' :: g).take j = (printE e).take j :=
      List.take_append_of_le_length (by omega)
    have hne : ¬ (((printE e).take j).count '(' = ((printE e).take j).count ')') := by
      have hbal := cgFrom_spec (printE e) 0 (cg_printE e he 0 le_rfl) j hj2
      have hcounts := parenBal_eq_counts ((printE e).take j)
      omega
    rw [balancedAtB, htake]
    simp [hne]

lemma length_printE_pw (ps : Pieces) :
    (printE (.pw ps)).length = (printPieces ps).length + 11 := by
  show (pwMarker ++ ('(' :: (printPieces ps ++ [')']))).length = _
  rw [List.length_append, List.length_cons, List.length_append,
    show pwMarker.length = 9 by decide]
  simp
  omega

mutual
/-- On the printed form of a well-formed `Piecewise` group all of whose
groups carry exactly one catch-all guard, the rewriter succeeds and returns
exactly the assembled flat sum of `(expression)*(condition)` products. -/
theorem parse_print_pw : ∀ (ps : Pieces), wfP ps = true → countTrueG ps = 1 →
    oneTP ps = true → ∀ fuel : Nat, (printE (.pw ps)).length + 2 ≤ fuel →
    parsePWFull fuel (printE (.pw ps)) = .ok (assemblePieces (expPieces ps))
  | ps, hwf, hct, hot, fuel, hfuel => by
    have hlen11 := length_printE_pw ps
    obtain ⟨F, rfl⟩ : ∃ F, fuel = F + 1 := ⟨fuel - 1, by omega⟩
    have hns : noSpace (printE (.pw ps)) = true := noSpace_printE (.pw ps) hwf
    have hpre : pwMarker.isPrefixOf (printE (.pw ps)) = true := by
      show pwMarker.isPrefixOf (pwMarker ++ _) = true
      exact pwMarker_isPrefixOf_append _
    have hcontains : containsPW (printE (.pw ps)) = true := containsPW_of_isPrefixOf hpre
    rw [parsePWFull, filter_eq_self_of_noSpace hns]
    rw [if_neg (by omega), if_neg (by simp [hcontains])]
    obtain ⟨F', rfl⟩ : ∃ F', F = F' + 1 := ⟨F - 1, by omega⟩
    rw [parsePWCore]
    rw [if_neg (by omega), if_neg (by simp [hcontains]), idxOfPW_of_isPrefixOf hpre]
    have hdrop : (printE (.pw ps)).drop (0 + 9) = '(' :: (printPieces ps ++ ')' :: []) := by
      show (pwMarker ++ ('(' :: (printPieces ps ++ [')']))).drop (0 + 9) = _
      rw [Nat.zero_add, show (9 : Nat) = pwMarker.length from by decide, List.drop_left]
    simp only [hdrop, List.take_zero,
      gefft_wrapped (printPieces ps) [] (wn_printPieces ps hwf 0 le_rfl)
        (parenBal_printPieces ps hwf) rfl,
      (extract_wrapped (printPieces ps) []).1, (extract_wrapped (printPieces ps) []).2,
      parse_pieces_go ps hwf hot F' [] (by omega), List.nil_append]
    rw [countP_expPieces ps, if_pos hct]
    obtain ⟨F2, rfl⟩ : ∃ F2, F' = F2 + 1 := ⟨F' - 1, by omega⟩
    rw [show parsePWCore (F2 + 1) [] = .ok [] from by
      rw [parsePWCore, if_pos (show ([] : List Char).length = 0 from rfl)]]
    simp
termination_by ps hwf hct hot fuel hfuel => (sizeOf ps, 1)

/-- The inner loop on the printed branch list of a well-formed group: it
returns the accumulated expected pieces. -/
theorem parse_pieces_go : ∀ (ps : Pieces), wfP ps = true → oneTP ps = true →
    ∀ (fuel : Nat) (acc : List (List Char × List Char)),
    (printPieces ps).length + 1 ≤ fuel →
    parsePiecesGo fuel (printPieces ps) acc = .ok (acc ++ expPieces ps)
  | .nil, _, _, fuel, acc, hfuel => by
    obtain ⟨F, rfl⟩ : ∃ F, fuel = F + 1 := ⟨fuel - 1, by omega⟩
    rw [parsePiecesGo, if_pos (show (printPieces Pieces.nil).length = 0 from rfl)]
    simp [expPieces]
  | .cons e g tail, hwf, hot, fuel, acc, hfuel => by
    obtain ⟨he, hg, hrest⟩ := wfP_cons_parts hwf
    obtain ⟨hote, hotp⟩ := oneTP_cons_parts hot
    obtain ⟨ts, hts, hbalts, hcase⟩ :
        ∃ ts, printPieces (.cons e g tail) =
            '(' :: ((printE e ++ ',' :: g) ++ ')' :: ts) ∧ parenBal ts = 0 ∧
          ((ts = [] ∧ tail = .nil) ∨ (ts = ',' :: printPieces tail ∧ tail ≠ .nil)) := by
      cases tail with
      | nil => exact ⟨[], rfl, rfl, Or.inl ⟨rfl, rfl⟩⟩
      | cons e2 g2 ps2 =>
        refine ⟨',' :: printPieces (.cons e2 g2 ps2), ?_, ?_, Or.inr ⟨rfl, by simp⟩⟩
        · show ('(' :: ((printE e ++ ',' :: g) ++ [')'])) ++
            ',' :: printPieces (.cons e2 g2 ps2) = _
          simp [List.cons_append, List.append_assoc]
        · rw [parenBal_cons, charBal_comma, parenBal_printPieces _ hrest]
          ring
    obtain ⟨F, rfl⟩ : ∃ F, fuel = F + 1 := ⟨fuel - 1, by omega⟩
    have hlenpp := congrArg List.length hts
    simp only [List.length_cons, List.length_append] at hlenpp
    have hwn : wnFrom 0 (printE e ++ ',' :: g) = true := by
      apply wnFrom_append_of
      · exact wn_printE e he 0 le_rfl
      · rw [parenBal_printE e he, add_zero]
        apply wnFrom_cons_of
        · rw [charBal_comma]; omega
        · rw [charBal_comma, add_zero]
          exact (strOKb_parts hg).2.2.1
    have hbalb : parenBal (printE e ++ ',' :: g) = 0 := by
      rw [parenBal_append, parenBal_printE e he, parenBal_cons, charBal_comma,
        (strOKb_parts hg).2.1]
      ring
    rw [hts, parsePiecesGo]
    rw [if_neg (by simp)]
    simp only [gefft_wrapped (printE e ++ ',' :: g) ts hwn hbalb hbalts,
      (extract_wrapped (printE e ++ ',' :: g) ts).1,
      (extract_wrapped (printE e ++ ',' :: g) ts).2]
    have hcond : ¬ (ts.length ≠ 0 ∧ ts.head? ≠ some ',') := by
      rcases hcase with ⟨h1, _⟩ | ⟨h1, _⟩
      · subst h1; simp
      · rw [h1]; simp
    rw [if_neg hcond]
    simp only [commaSplit_piece e g he hg, List.take_left]
    have hdp : (printE e ++ ',' :: g).drop ((printE e).length + 1) = g := by
      have := @List.drop_append Char (printE e) (',' :: g) 1
      simpa using this
    rw [hdp]
    cases e with
    | atom s =>
      have hnoPW : containsPW (printE (.atom s)) = false :=
        (strOKb_parts (show strOKb s = true from he)).1
      rw [if_neg (by simp [hnoPW])]
      rcases hcase with ⟨h1, h2⟩ | ⟨h1, h2⟩
      · subst h1
        subst h2
        obtain ⟨F2, rfl⟩ : ∃ F2, F = F2 + 1 := ⟨F - 1, by omega⟩
        rw [show ([] : List Char).tail = [] from rfl, parsePiecesGo,
          if_pos (show ([] : List Char).length = 0 from rfl)]
        simp [expPieces, branchOut, printE]
      · have hlts := congrArg List.length h1
        simp only [List.length_cons] at hlts
        rw [h1, show (',' :: printPieces tail).tail = printPieces tail from rfl]
        rw [parse_pieces_go tail hrest hotp F _ (by omega)]
        simp [expPieces, branchOut, printE]
    | pw qs =>
      have hpre2 : pwMarker.isPrefixOf (printE (.pw qs)) = true := by
        show pwMarker.isPrefixOf (pwMarker ++ _) = true
        exact pwMarker_isPrefixOf_append _
      have hc2 : containsPW (printE (.pw qs)) = true := containsPW_of_isPrefixOf hpre2
      rw [if_pos hc2]
      obtain ⟨hq1, hq2⟩ := oneTE_pw_parts hote
      have hlen2 := length_printE_pw qs
      simp only [parse_print_pw qs he hq1 hq2 F (by omega)]
      rcases hcase with ⟨h1, h2⟩ | ⟨h1, h2⟩
      · subst h1
        subst h2
        obtain ⟨F2, rfl⟩ : ∃ F2, F = F2 + 1 := ⟨F - 1, by omega⟩
        rw [show ([] : List Char).tail = [] from rfl, parsePiecesGo,
          if_pos (show ([] : List Char).length = 0 from rfl)]
        simp [expPieces, branchOut]
      · have hlts := congrArg List.length h1
        simp only [List.length_cons] at hlts
        rw [h1, show (',' :: printPieces tail).tail = printPieces tail from rfl]
        rw [parse_pieces_go tail hrest hotp F _ (by omega)]
        simp [expPieces, branchOut]
termination_by ps hwf hot fuel acc hfuel => (sizeOf ps, 0)
end

/-- A time-point valuation: the numeric value of each atomic expression
string and the boolean truth of each guard string at that time.  It models
evaluating the emitted code at one time value. -/
structure TimeVal where
  aval : List Char → ℚ
  gval : List Char → Bool

/-- Some non-catch-all guard of the branch list holds at `v`. -/
def anyHolds (v : TimeVal) : Pieces → Bool
  | .nil => false
  | .cons _ g ps => (decide (g ≠ trueLit) && v.gval g) || anyHolds v ps

mutual
/-- Selected-branch semantics of the original conditional: the value of the
branch whose guard holds at `v` (the guards being mutually exclusive), or of
the catch-all branch when no guard holds. -/
def evalSel (v : TimeVal) : PExpr → ℚ
  | .atom s => v.aval s
  | .pw ps => evalSelP v ps

def evalSelP (v : TimeVal) : Pieces → ℚ
  | .nil => 0
  | .cons e g ps =>
    if g = trueLit then (if anyHolds v ps then evalSelP v ps else evalSel v e)
    else (if v.gval g then evalSel v e else evalSelP v ps)
end

/-- The non-catch-all guards of a branch list, in order. -/
def nonTrueGs : Pieces → List (List Char)
  | .nil => []
  | .cons _ g ps => if g = trueLit then nonTrueGs ps else g :: nonTrueGs ps

mutual
/-- Semantics of the rewritten flat sum: over the branches, branch value
times guard indicator (0 or 1), the catch-all indicator being the negation
of the disjunction of all the sibling guards — the evident reading of the
emitted `(expression)*(condition)` products and of the synthesized
`(not ((g1) | (g2) | ...))` guard. -/
def evalRW (v : TimeVal) : PExpr → ℚ
  | .atom s => v.aval s
  | .pw ps => evalRWP v (nonTrueGs ps) ps

def evalRWP (v : TimeVal) (gs : List (List Char)) : Pieces → ℚ
  | .nil => 0
  | .cons e g ps =>
    evalRW v e *
      (if g = trueLit then (if gs.any (fun g2 => v.gval g2) then 0 else 1)
       else (if v.gval g then 1 else 0)) + evalRWP v gs ps
end

/-- Number of non-catch-all guards of the branch list that hold at `v`. -/
def countHolds (v : TimeVal) : Pieces → Nat
  | .nil => 0
  | .cons _ g ps => (if g ≠ trueLit ∧ v.gval g = true then 1 else 0) + countHolds v ps

mutual
/-- Mutual exclusivity of the guards at `v`, at every nesting level: in
every group at most one non-catch-all guard holds. -/
def exclE (v : TimeVal) : PExpr → Bool
  | .atom _ => true
  | .pw ps => decide (countHolds v ps ≤ 1) && exclP v ps

def exclP (v : TimeVal) : Pieces → Bool
  | .nil => true
  | .cons e _ ps => exclE v e && exclP v ps
end

/-- Branch-level semantic agreement, used as the induction hypothesis. -/
def branchSemOK (v : TimeVal) : Pieces → Prop
  | .nil => True
  | .cons e _ ps => evalRW v e = evalSel v e ∧ branchSemOK v ps

lemma anyHolds_eq_any (v : TimeVal) : ∀ ps : Pieces,
    anyHolds v ps = (nonTrueGs ps).any (fun g2 => v.gval g2)
  | .nil => rfl
  | .cons e g ps => by
    have ih := anyHolds_eq_any v ps
    rw [anyHolds, nonTrueGs]
    by_cases hg : g = trueLit
    · simp [hg, ih]
    · simp [hg, ih]

lemma countHolds_cons_true (v : TimeVal) (e : PExpr) (ps : Pieces) :
    countHolds v (.cons e trueLit ps) = countHolds v ps := by
  rw [countHolds]
  simp

lemma evalRWP_zero (v : TimeVal) (gs : List (List Char))
    (hgs : gs.any (fun g2 => v.gval g2) = true) :
    ∀ ps : Pieces, countHolds v ps = 0 → evalRWP v gs ps = 0
  | .nil, _ => rfl
  | .cons e g ps, h => by
    have ih := evalRWP_zero v gs hgs ps
    rw [countHolds] at h
    rw [evalRWP]
    by_cases hg : g = trueLit
    · have hcount0 : countHolds v ps = 0 := by
        simp [hg] at h
        omega
      simp [hg, hgs, ih hcount0]
    · by_cases hv : v.gval g = true
      · simp [hg, hv] at h
      · have hv2 : v.gval g = false := by
          cases hvv : v.gval g
          · rfl
          · exact absurd hvv hv
        have hcount0 : countHolds v ps = 0 := by
          simp [hg, hv2] at h
          omega
        simp [hg, hv2, ih hcount0]

lemma evalRWP_zero_noTrue_noHold (v : TimeVal) (gs : List (List Char)) :
    ∀ ps : Pieces, countTrueG ps = 0 → anyHolds v ps = false →
    evalRWP v gs ps = 0
  | .nil, _, _ => rfl
  | .cons e g ps, hct, hah => by
    have ih := evalRWP_zero_noTrue_noHold v gs ps
    rw [countTrueG] at hct
    rw [anyHolds] at hah
    simp only [Bool.or_eq_false_iff, Bool.and_eq_false_iff] at hah
    have hg : g ≠ trueLit := by
      by_contra hcon
      simp [hcon] at hct
    have hv2 : v.gval g = false := by
      rcases hah.1 with h | h
      · simp [hg] at h
      · exact h
    rw [evalRWP, if_neg hg, if_neg (by simp [hv2]),
      ih (by simpa [hg] using hct) hah.2]
    ring

lemma evalRWP_selP_none (v : TimeVal) (gs : List (List Char))
    (hgs : gs.any (fun g2 => v.gval g2) = false) :
    ∀ ps : Pieces, anyHolds v ps = false → branchSemOK v ps → countTrueG ps ≤ 1 →
    evalRWP v gs ps = evalSelP v ps
  | .nil, _, _, _ => rfl
  | .cons e g ps, hnone, hIH, hct => by
    have ih := evalRWP_selP_none v gs hgs ps
    rw [anyHolds] at hnone
    simp only [Bool.or_eq_false_iff, Bool.and_eq_false_iff] at hnone
    obtain ⟨hIH1, hIH2⟩ := hIH
    rw [countTrueG] at hct
    rw [evalRWP, evalSelP]
    by_cases hg : g = trueLit
    · rw [if_pos hg, if_pos hg, if_neg (by simp [hgs]), if_neg (by simp [hnone.2])]
      rw [evalRWP_zero_noTrue_noHold v gs ps (by simp [hg] at hct; omega) hnone.2, hIH1]
      ring
    · have hv2 : v.gval g = false := by
        rcases hnone.1 with h | h
        · simp [hg] at h
        · exact h
      rw [if_neg hg, if_neg hg, if_neg (by simp [hv2]), if_neg (by simp [hv2])]
      rw [ih hnone.2 hIH2 (by omega)]
      ring

lemma evalRWP_selP_holder (v : TimeVal) (gs : List (List Char))
    (hgs : gs.any (fun g2 => v.gval g2) = true) :
    ∀ ps : Pieces, anyHolds v ps = true → countHolds v ps ≤ 1 → branchSemOK v ps →
    evalRWP v gs ps = evalSelP v ps
  | .nil, h, _, _ => absurd h (by simp [anyHolds])
  | .cons e g ps, hany, hcount, hIH => by
    have ih := evalRWP_selP_holder v gs hgs ps
    rw [anyHolds] at hany
    obtain ⟨hIH1, hIH2⟩ := hIH
    rw [countHolds] at hcount
    rw [evalRWP, evalSelP]
    by_cases hg : g = trueLit
    · have h2 : anyHolds v ps = true := by simpa [hg] using hany
      rw [if_pos hg, if_pos hg, if_pos (by simp [hgs]), if_pos h2]
      rw [ih h2 (by simp [hg] at hcount; omega) hIH2]
      ring
    · by_cases hv : v.gval g = true
      · have hch0 : countHolds v ps = 0 := by
          simp only [hg, hv, ne_eq, not_false_eq_true, true_and, if_true] at hcount
          omega
        rw [if_neg hg, if_neg hg, if_pos hv, if_pos hv]
        rw [evalRWP_zero v gs hgs ps hch0, hIH1]
        ring
      · have hv2 : v.gval g = false := by
          cases hvv : v.gval g
          · rfl
          · exact absurd hvv hv
        have h2 : anyHolds v ps = true := by simpa [hg, hv2] using hany
        rw [if_neg hg, if_neg hg, if_neg (by simp [hv2]), if_neg (by simp [hv2])]
        rw [ih h2 (by simp [hv2] at hcount; omega) hIH2]
        ring

mutual
/-- Under one-catch-all and mutual exclusivity, the rewritten flat sum
evaluates to the selected branch, at every nesting level. -/
theorem evalRW_eq_evalSel : ∀ (e : PExpr) (v : TimeVal), oneTE e = true →
    exclE v e = true → evalRW v e = evalSel v e
  | .atom _, _, _, _ => rfl
  | .pw ps, v, hone, hexcl => by
    obtain ⟨h1, h2⟩ := oneTE_pw_parts hone
    have hex : countHolds v ps ≤ 1 ∧ exclP v ps = true := by
      have h3 : (decide (countHolds v ps ≤ 1) && exclP v ps) = true := hexcl
      simp only [Bool.and_eq_true, decide_eq_true_eq] at h3
      exact h3
    have hIH : branchSemOK v ps := branchSemOK_of ps v h2 hex.2
    show evalRWP v (nonTrueGs ps) ps = evalSelP v ps
    cases hb : anyHolds v ps
    · exact evalRWP_selP_none v _ (by rw [← anyHolds_eq_any]; exact hb) ps hb hIH (by omega)
    · exact evalRWP_selP_holder v _ (by rw [← anyHolds_eq_any]; exact hb) ps hb hex.1 hIH

theorem branchSemOK_of : ∀ (ps : Pieces) (v : TimeVal), oneTP ps = true →
    exclP v ps = true → branchSemOK v ps
  | .nil, _, _, _ => trivial
  | .cons e g ps, v, hone, hexcl => by
    obtain ⟨h1, h2⟩ := oneTP_cons_parts hone
    have h3 : exclE v e = true ∧ exclP v ps = true := by
      have h4 : (exclE v e && exclP v ps) = true := hexcl
      simp only [Bool.and_eq_true] at h4
      exact h4
    exact ⟨evalRW_eq_evalSel e v h1 h3.1, branchSemOK_of ps v h2 h3.2⟩
end

/-- Claim C1: for every well-formed nested-conditional input (the printed
form of a `Piecewise` tree with mutually exclusive guards and exactly one
catch-all guard per group), the rewriter returns a single string with no
conditional marker remaining, namely the parenthesized flat sum of
`(branch)*(guard)` products in which the catch-all guard is replaced by the
negated disjunction of its sibling guards, and that output evaluates, at
every time valuation at which the guards are mutually exclusive, to the
value of the branch whose guard holds there. -/
theorem C1_rewriter_correct (ps : Pieces) (hwf : wfP ps = true)
    (hone : oneTE (.pw ps) = true) :
    parse_piecewise_heaviside_into_string (printE (.pw ps)) = .ok (rewriteE (.pw ps)) ∧
    containsPW (rewriteE (.pw ps)) = false ∧
    (∀ v : TimeVal, exclE v (.pw ps) = true → evalRW v (.pw ps) = evalSel v (.pw ps)) := by
  obtain ⟨h1, h2⟩ := oneTE_pw_parts hone
  refine ⟨?_, ?_, ?_⟩
  · show parsePWFull ((printE (.pw ps)).length + 2) (printE (.pw ps)) = _
    exact parse_print_pw ps hwf h1 h2 _ le_rfl
  · exact containsPW_assemblePieces _ (noPW_expPieces ps hwf)
  · intro v hv
    exact evalRW_eq_evalSel (.pw ps) v hone hv

/-- A concrete two-branch conditional tree: `Piecewise((1,t<5),(2,True))`. -/
def c1Tree : Pieces :=
  .cons (.atom "1".toList) "t<5".toList (.cons (.atom "2".toList) trueLit .nil)

/-- A time valuation at which the guard `t<5` holds. -/
def c1Val : TimeVal :=
  ⟨fun s => if s = "1".toList then 1 else 2, fun g => g = "t<5".toList⟩

/-- Witness for C1 at the tree `Piecewise((1,t<5),(2,True))`. -/
theorem C1_witness :
    (wfP c1Tree = true ∧ oneTE (.pw c1Tree) = true ∧ exclE c1Val (.pw c1Tree) = true) ∧
    (parse_piecewise_heaviside_into_string (printE (.pw c1Tree)) = .ok (rewriteE (.pw c1Tree)) ∧
      containsPW (rewriteE (.pw c1Tree)) = false ∧
      evalRW c1Val (.pw c1Tree) = evalSel c1Val (.pw c1Tree)) := by
  have h := C1_rewriter_correct c1Tree (by decide) (by decide)
  exact ⟨⟨by decide, by decide, by decide⟩, h.1, h.2.1, h.2.2 c1Val (by decide)⟩

/-- Counterexample to claim C3 as stated: on the input `"1 + 2"`, which
contains no `Piecewise` marker, the function does not return the input
unchanged — it returns the input with its spaces stripped. -/
theorem C3_counterexample :
    parse_piecewise_heaviside_into_string "1 + 2".toList = .ok "1+2".toList ∧
    parse_piecewise_heaviside_into_string "1 + 2".toList ≠ .ok "1 + 2".toList := by
  constructor
  · decide
  · decide

/-- Claim C3 (amended): on input containing no `Piecewise` marker after
space removal, the function returns the input with all spaces removed —
hence the identity exactly on space-free non-piecewise inputs — and it
fails on input that is empty after space removal. -/
theorem C3_no_marker_strips_spaces (s : List Char) :
    ((s.filter (fun c => c ≠ ' ')).length ≠ 0 →
      containsPW (s.filter (fun c => c ≠ ' ')) = false →
      parse_piecewise_heaviside_into_string s = .ok (s.filter (fun c => c ≠ ' '))) ∧
    ((s.filter (fun c => c ≠ ' ')).length = 0 →
      ∃ e, parse_piecewise_heaviside_into_string s = .error e) := by
  constructor
  · intro hne hnp
    show parsePWFull (s.length + 2) s = _
    obtain ⟨F, hF⟩ : ∃ F, s.length + 2 = F + 1 := ⟨s.length + 1, rfl⟩
    rw [hF, parsePWFull, if_neg hne, if_pos hnp]
  · intro hz
    refine ⟨"assert failed: len(str_to_parse) > 0", ?_⟩
    show parsePWFull (s.length + 2) s = _
    obtain ⟨F, hF⟩ : ∃ F, s.length + 2 = F + 1 := ⟨s.length + 1, rfl⟩
    rw [hF, parsePWFull, if_pos hz]

/-- Witness for the amended C3 at the concrete input `"1 + 2"`. -/
theorem C3_witness :
    (("1 + 2".toList.filter (fun c => c ≠ ' ')).length ≠ 0 ∧
      containsPW ("1 + 2".toList.filter (fun c => c ≠ ' ')) = false) ∧
    parse_piecewise_heaviside_into_string "1 + 2".toList =
      .ok ("1 + 2".toList.filter (fun c => c ≠ ' ')) :=
  ⟨⟨by decide, by decide⟩,
    (C3_no_marker_strips_spaces "1 + 2".toList).1 (by decide) (by decide)⟩

/-- When a well-formed group has a catch-all count different from one (its
nested groups being fine), the rewriter stops at the count assertion. -/
lemma parse_print_pw_badcount (ps : Pieces) (hwf : wfP ps = true) (hot : oneTP ps = true)
    (hct : countTrueG ps ≠ 1) :
    parse_piecewise_heaviside_into_string (printE (.pw ps)) =
      .error "assert failed: count_true == 1" := by
  have hlen11 := length_printE_pw ps
  show parsePWFull ((printE (.pw ps)).length + 2) (printE (.pw ps)) = _
  obtain ⟨F, hF⟩ : ∃ F, (printE (.pw ps)).length + 2 = F + 1 :=
    ⟨(printE (.pw ps)).length + 1, rfl⟩
  have hns : noSpace (printE (.pw ps)) = true := noSpace_printE (.pw ps) hwf
  have hpre : pwMarker.isPrefixOf (printE (.pw ps)) = true := by
    show pwMarker.isPrefixOf (pwMarker ++ _) = true
    exact pwMarker_isPrefixOf_append _
  have hcontains : containsPW (printE (.pw ps)) = true := containsPW_of_isPrefixOf hpre
  rw [hF, parsePWFull, filter_eq_self_of_noSpace hns]
  rw [if_neg (by omega), if_neg (by simp [hcontains])]
  obtain ⟨F', hF'⟩ : ∃ F', F = F' + 1 := ⟨F - 1, by omega⟩
  rw [hF', parsePWCore]
  rw [if_neg (by omega), if_neg (by simp [hcontains]), idxOfPW_of_isPrefixOf hpre]
  have hdrop : (printE (.pw ps)).drop (0 + 9) = '(' :: (printPieces ps ++ ')' :: []) := by
    show (pwMarker ++ ('(' :: (printPieces ps ++ [')']))).drop (0 + 9) = _
    rw [Nat.zero_add, show (9 : Nat) = pwMarker.length from by decide, List.drop_left]
  simp only [hdrop, List.take_zero,
    gefft_wrapped (printPieces ps) [] (wn_printPieces ps hwf 0 le_rfl)
      (parenBal_printPieces ps hwf) rfl,
    (extract_wrapped (printPieces ps) []).1, (extract_wrapped (printPieces ps) []).2,
    parse_pieces_go ps hwf hot F' [] (by omega), List.nil_append]
  rw [countP_expPieces ps, if_neg hct]

/-- When the single branch term of a conditional has no comma at which both
sides have balanced parenthesis counts, the rewriter fails at the comma
split. -/
lemma parse_unsplittable (b : List Char) (hb : strOKb b = true)
    (hcomma : ∀ j, j < b.length → b[j]? = some ',' → balancedAtB b j = false) :
    ∃ e, parse_piecewise_heaviside_into_string
      (pwMarker ++ ('(' :: (('(' :: (b ++ [')'])) ++ ')' :: []))) = .error e := by
  obtain ⟨hnb, hbb, hwb, hcb, hsb⟩ := strOKb_parts hb
  obtain ⟨ec, hec⟩ := commaSplit_eq_error b (by
    intro j hj
    by_cases hlt : j < b.length
    · exact hcomma j hlt hj
    · rw [List.getElem?_eq_none (by omega)] at hj
      exact absurd hj (by simp))
  refine ⟨ec, ?_⟩
  have hm : pwMarker.all (fun c => c ≠ ' ') = true := by decide
  have hsb2 : b.all (fun c => c ≠ ' ') = true := hsb
  have hns : noSpace (pwMarker ++ ('(' :: (('(' :: (b ++ [')'])) ++ ')' :: []))) = true := by
    simp only [noSpace, List.all_append, List.all_cons, List.all_nil, Bool.and_eq_true,
      Bool.and_true, Bool.true_and]
    exact ⟨hm, by decide, ⟨by decide, hsb2, by decide⟩, by decide⟩
  have hslen : (pwMarker ++ ('(' :: (('(' :: (b ++ [')'])) ++ ')' :: []))).length =
      b.length + 13 := by
    simp [List.length_append, List.length_cons, show pwMarker.length = 9 from by decide]
    omega
  have hpre : pwMarker.isPrefixOf
      (pwMarker ++ ('(' :: (('(' :: (b ++ [')'])) ++ ')' :: []))) = true :=
    pwMarker_isPrefixOf_append _
  have hcontains := containsPW_of_isPrefixOf hpre
  show parsePWFull _ _ = _
  obtain ⟨F, hF⟩ : ∃ F, (pwMarker ++ ('(' :: (('(' :: (b ++ [')'])) ++ ')' :: []))).length + 2
      = F + 1 := ⟨_ + 1, rfl⟩
  rw [hF, parsePWFull, filter_eq_self_of_noSpace hns]
  rw [if_neg (by omega), if_neg (by rw [Bool.not_eq_false]; exact hcontains)]
  obtain ⟨F', hF'⟩ : ∃ F', F = F' + 1 := ⟨F - 1, by omega⟩
  rw [hF', parsePWCore]
  rw [if_neg (by omega), if_neg (by rw [Bool.not_eq_false]; exact hcontains),
    idxOfPW_of_isPrefixOf hpre]
  have hdrop : (pwMarker ++ ('(' :: (('(' :: (b ++ [')'])) ++ ')' :: []))).drop (0 + 9) =
      '(' :: (('(' :: (b ++ [')'])) ++ ')' :: []) := by
    rw [Nat.zero_add, show (9 : Nat) = pwMarker.length from by decide, List.drop_left]
  have hwnbody : wnFrom 0 ('(' :: (b ++ [')'])) = true := by
    apply wnFrom_cons_of
    · rw [charBal_open]; omega
    · rw [charBal_open]
      apply wnFrom_append_of
      · exact wnFrom_mono b 0 (0 + 1) (by omega) hwb
      · rw [hbb]
        apply wnFrom_cons_of
        · rw [charBal_close]; omega
        · rfl
  have hbalbody : parenBal ('(' :: (b ++ [')'])) = 0 := by
    rw [parenBal_cons, charBal_open, parenBal_append, hbb,
      show parenBal [')'] = -1 from by decide]
    ring
  simp only [hdrop, List.take_zero,
    gefft_wrapped ('(' :: (b ++ [')'])) [] hwnbody hbalbody rfl,
    (extract_wrapped ('(' :: (b ++ [')'])) []).1,
    (extract_wrapped ('(' :: (b ++ [')'])) []).2]
  obtain ⟨F2, hF2⟩ : ∃ F2, F' = F2 + 1 := ⟨F' - 1, by omega⟩
  rw [hF2, parsePiecesGo]
  rw [if_neg (by simp)]
  simp only [gefft_wrapped b [] hwb hbb rfl,
    (extract_wrapped b []).1, (extract_wrapped b []).2]
  rw [if_neg (by simp)]
  simp only [hec]

/-- Claim C5: a conditional group whose catch-all count is zero or more than
one fails at the count assertion, and a branch term with no comma at which
both sides are balanced fails with a malformed-input error; in both cases
the rewriter produces no output. -/
theorem C5_malformed_piecewise_errors :
    (∀ ps : Pieces, wfP ps = true → oneTP ps = true → countTrueG ps ≠ 1 →
      parse_piecewise_heaviside_into_string (printE (.pw ps)) =
        .error "assert failed: count_true == 1") ∧
    (∀ b : List Char, strOKb b = true →
      (∀ j, j < b.length → b[j]? = some ',' → balancedAtB b j = false) →
      ∃ e, parse_piecewise_heaviside_into_string
        (pwMarker ++ ('(' :: (('(' :: (b ++ [')'])) ++ ')' :: []))) = .error e) :=
  ⟨fun ps hwf hot hct => parse_print_pw_badcount ps hwf hot hct,
   fun b hb hcomma => parse_unsplittable b hb hcomma⟩

/-- A group with two catch-all branches: `Piecewise((1,True),(2,True))`. -/
def c5Tree : Pieces :=
  .cons (.atom "1".toList) trueLit (.cons (.atom "2".toList) trueLit .nil)

/-- Witness for C5: two catch-all branches, and the branch term `f(1,2)`
whose only comma sits inside a call. -/
theorem C5_witness :
    (wfP c5Tree = true ∧ oneTP c5Tree = true ∧ countTrueG c5Tree ≠ 1 ∧
      parse_piecewise_heaviside_into_string (printE (.pw c5Tree)) =
        .error "assert failed: count_true == 1") ∧
    (strOKb "f(1,2)".toList = true ∧
      (∀ j, j < ("f(1,2)".toList).length → ("f(1,2)".toList)[j]? = some ',' →
        balancedAtB "f(1,2)".toList j = false) ∧
      ∃ e, parse_piecewise_heaviside_into_string
        (pwMarker ++ ('(' :: (('(' :: ("f(1,2)".toList ++ [')'])) ++ ')' :: []))) =
          .error e) := by
  constructor
  · exact ⟨by decide, by decide, by decide,
      C5_malformed_piecewise_errors.1 c5Tree (by decide) (by decide) (by decide)⟩
  · exact ⟨by decide, by decide,
      C5_malformed_piecewise_errors.2 "f(1,2)".toList (by decide) (by decide)⟩

/-- Claim C10: a conditional group consisting of only the catch-all branch
gets, as the replacement guard, the negation of the empty disjunction — the
literal string `(not ())`. -/
theorem C10_empty_disjunction_guard (s : List Char) (hs : strOKb s = true) :
    parse_piecewise_heaviside_into_string (printE (.pw (.cons (.atom s) trueLit .nil))) =
      .ok ('(' :: ((('(' :: (s ++ [')'])) ++ ('*' :: "(not ())".toList)) ++ [')'])) := by
  have hwf : wfP (.cons (.atom s) trueLit .nil) = true := by
    show (wfE (.atom s) && strOKb trueLit && wfP .nil) = true
    rw [show wfE (.atom s) = strOKb s from rfl, hs]
    decide
  have hone : oneTE (.pw (.cons (.atom s) trueLit .nil)) = true := by
    show (decide (countTrueG (.cons (.atom s) trueLit .nil) = 1) &&
      (oneTE (.atom s) && oneTP .nil)) = true
    rw [show countTrueG (.cons (.atom s) trueLit .nil) = 1 from by
      show (if trueLit = trueLit then 1 else 0) + countTrueG .nil = 1
      simp [countTrueG]]
    rfl
  have h := C1_rewriter_correct (.cons (.atom s) trueLit .nil) hwf hone
  rw [h.1]
  have hwrap : ('(' :: (trueLit ++ [')'])) = tTrue := by decide
  show Except.ok (assemblePieces (expPieces (.cons (.atom s) trueLit .nil))) = _
  rw [show expPieces (.cons (.atom s) trueLit .nil) =
    [(('(' :: (s ++ [')'])), '(' :: (trueLit ++ [')']))] from rfl]
  rw [assemblePieces, newTrueCond]
  rw [hwrap]
  simp [joinSep]

/-- The symbolic variables that can occur free in a parsed boundary
expression (sympy symbols; `x`, `y`, `z`, `t` come from `sympy.abc`). -/
inductive BSym : Type where
  | x | y | z | t
  | var : String → BSym
deriving DecidableEq

/-- Abstract symbolic expression as the boundary compiler uses one: its
free-symbol set and its numeric value at a time (modelling
`bc_eqn.evalf(subs={'t': t0})`).  The sympy algebra itself is an external
collaborator. -/
structure SymExpr : Type where
  free : Finset BSym
  evalAt : ℚ → ℚ

/-- One parsed line `specie : bc_name -> expression` of the boundary DSL
(the `split(':')` / `split('->')` of source lines 115 and 119; sympy parsing
of the expression text is abstracted into `eqn`). -/
structure BCLine : Type where
  specie : String
  bc_name : String
  eqn : SymExpr

/-- The external grouped-boundary registry: name-to-id lookup and the
no-flux name set. -/
structure GroupedBCsM : Type where
  idOf : String → Int
  no_flux_names : List String

/-- The mutable state of `create_boundary_conditions`: the caller's state
array `c0` (species row, node column), the per-boundary anti-duplication
record, the two expression tables, and the used boundary names. -/
structure BCState : Type where
  c0 : Nat → Nat → ℚ
  anti_dup : List (Int × String)
  bc_dict : List (Int × String × SymExpr)
  bc_dict_for_c0 : List (Int × String × SymExpr)
  bcs_names_used : List String

/-- The spatial coordinates of source line 108. -/
def spatial_coords : Finset BSym := {BSym.x, BSym.y, BSym.z}

/-- The fancy-index zeroing `c0[row, pts] = 0` of source line 147. -/
def zeroRow (c0 : Nat → Nat → ℚ) (row : Nat) (pts : List Nat) : Nat → Nat → ℚ :=
  fun r n => if r = row ∧ n ∈ pts then 0 else c0 r n

/-- `np.add.at(row, indices, values)` of source line 153: each value is
accumulated into its index, repeated indices adding up rather than
overwriting. -/
def addAt (c0row : Nat → ℚ) (pairs : List (Nat × ℚ)) : Nat → ℚ :=
  pairs.foldl (fun f p => fun n => if p.1 = n then f n + p.2 else f n) c0row

/-- Processing of one boundary-condition line (source lines 114-147),
returning the state reached and the raised error, if any.  The stored
expressions additionally go through the string rewriter
(`parse_piecewise_heaviside_into_string`, verified separately); at this
symbolic level the table stores the expression itself, differentiated
(`diffT`, modelling `bc_eqn.diff(t)`) exactly when `points_per_model > 1`. -/
def processBCLine (specie_names : List String) (gbcs : GroupedBCsM)
    (points_for_bc : Int → List Nat) (diffT : SymExpr → SymExpr)
    (points_per_model : Nat) (st : BCState) (l : BCLine) : BCState × Option String :=
  if l.specie ∉ specie_names then
    (st, some "Unknown specie")
  else
    if l.bc_name ∈ gbcs.no_flux_names then
      ({ st with bcs_names_used := st.bcs_names_used ++ [l.bc_name] },
        some "BC value specified for the no-flux bc")
    else if (gbcs.idOf l.bc_name, l.specie) ∈ st.anti_dup then
      ({ st with bcs_names_used := st.bcs_names_used ++ [l.bc_name] },
        some "has multiple BCs specified for boundary")
    else if (spatial_coords ∩ l.eqn.free).Nonempty then
      ({ st with
          bcs_names_used := st.bcs_names_used ++ [l.bc_name],
          anti_dup := st.anti_dup ++ [(gbcs.idOf l.bc_name, l.specie)] },
        some "is written in terms of a spatial coordinate")
    else if l.eqn.free ≠ {BSym.t} ∧ l.eqn.free ≠ ∅ then
      ({ st with
          bcs_names_used := st.bcs_names_used ++ [l.bc_name],
          anti_dup := st.anti_dup ++ [(gbcs.idOf l.bc_name, l.specie)] },
        some "uses a variable other than t (time)")
    else if points_per_model > 1 then
      ({ st with
          bcs_names_used := st.bcs_names_used ++ [l.bc_name],
          anti_dup := st.anti_dup ++ [(gbcs.idOf l.bc_name, l.specie)],
          bc_dict := st.bc_dict ++ [(gbcs.idOf l.bc_name, l.specie, diffT l.eqn)],
          bc_dict_for_c0 := st.bc_dict_for_c0 ++ [(gbcs.idOf l.bc_name, l.specie, l.eqn)],
          c0 := zeroRow st.c0 (specie_names.indexOf l.specie)
                  (points_for_bc (gbcs.idOf l.bc_name)) }, none)
    else
      ({ st with
          bcs_names_used := st.bcs_names_used ++ [l.bc_name],
          anti_dup := st.anti_dup ++ [(gbcs.idOf l.bc_name, l.specie)],
          bc_dict := st.bc_dict ++ [(gbcs.idOf l.bc_name, l.specie, l.eqn)] }, none)

/-- The line loop of source line 114, stopping at the first raised error
(the exception aborts the loop but keeps the mutations already made). -/
def processBCLines (specie_names : List String) (gbcs : GroupedBCsM)
    (points_for_bc : Int → List Nat) (diffT : SymExpr → SymExpr)
    (points_per_model : Nat) (st : BCState) :
    List BCLine → BCState × Option String
  | [] => (st, none)
  | l :: ls =>
    match processBCLine specie_names gbcs points_for_bc diffT points_per_model st l with
    | (st2, some e) => (st2, some e)
    | (st2, none) =>
        processBCLines specie_names gbcs points_for_bc diffT points_per_model st2 ls

/-- The post-loop `c0` override of source lines 150-153: for each stored
original expression, accumulate `Q_weights[bc_id] * eqn(t0)` into the
species row at `points_for_bc[bc_id]` with `np.add.at` semantics. -/
def applyC0Overrides (specie_names : List String) (points_for_bc : Int → List Nat)
    (Q_weights : Int → List ℚ) (t0 : ℚ)
    (entries : List (Int × String × SymExpr)) (c0 : Nat → Nat → ℚ) : Nat → Nat → ℚ :=
  entries.foldl (fun c0 e => fun r n =>
    if r = specie_names.indexOf e.2.1 then
      addAt (c0 r) ((points_for_bc e.1).zip
        ((Q_weights e.1).map (fun w => w * e.2.2.evalAt t0))) n
    else c0 r n) c0

/-- `create_boundary_conditions` up to code generation: the line loop, then
(in derivative mode, on success) the `c0` override. -/
def create_boundary_conditions_model (specie_names : List String) (gbcs : GroupedBCsM)
    (points_for_bc : Int → List Nat) (Q_weights : Int → List ℚ) (t0 : ℚ)
    (points_per_model : Nat) (diffT : SymExpr → SymExpr)
    (c0 : Nat → Nat → ℚ) (lines : List BCLine) : BCState × Option String :=
  match processBCLines specie_names gbcs points_for_bc diffT points_per_model
      { c0 := c0, anti_dup := [], bc_dict := [], bc_dict_for_c0 := [],
        bcs_names_used := [] } lines with
  | (st, some e) => (st, some e)
  | (st, none) =>
    if points_per_model > 1 then
      ({ st with
          c0 := applyC0Overrides specie_names points_for_bc Q_weights t0
                  st.bc_dict_for_c0 st.c0 }, none)
    else (st, none)

/-- Claim C6: a boundary-condition line raises an error exactly when the
species is unknown, or the boundary is no-flux, or the same species already
has an expression for the same boundary, or the expression's free symbols
contain a spatial coordinate or any variable other than time (a constant
expression, with no free variables, is accepted). -/
theorem C6_line_validation (specie_names : List String) (gbcs : GroupedBCsM)
    (points_for_bc : Int → List Nat) (diffT : SymExpr → SymExpr)
    (points_per_model : Nat) (st : BCState) (l : BCLine) :
    (processBCLine specie_names gbcs points_for_bc diffT points_per_model st l).2.isSome
        = true ↔
      (l.specie ∉ specie_names ∨ l.bc_name ∈ gbcs.no_flux_names ∨
        (gbcs.idOf l.bc_name, l.specie) ∈ st.anti_dup ∨
        (spatial_coords ∩ l.eqn.free).Nonempty ∨
        (l.eqn.free ≠ {BSym.t} ∧ l.eqn.free ≠ ∅)) := by
  rw [processBCLine]
  split_ifs with h1 h2 h3 h4 h5 h6 <;> simp_all <;> exact h5

/-- Invariant of the line loop when derivative mode is off
(`points_per_model <= 1`): `c0` is never touched, and on success the
expression table receives exactly the original expression of every line,
in order. -/
theorem processBCLines_cstr (specie_names : List String) (gbcs : GroupedBCsM)
    (points_for_bc : Int → List Nat) (diffT : SymExpr → SymExpr)
    (points_per_model : Nat) (h : points_per_model ≤ 1) :
    ∀ (lines : List BCLine) (st : BCState),
    (processBCLines specie_names gbcs points_for_bc diffT points_per_model st lines).1.c0
        = st.c0 ∧
    ((processBCLines specie_names gbcs points_for_bc diffT points_per_model st lines).2
        = none →
      (processBCLines specie_names gbcs points_for_bc diffT points_per_model st lines).1.bc_dict
        = st.bc_dict ++ lines.map (fun l => (gbcs.idOf l.bc_name, l.specie, l.eqn))) := by
  intro lines
  induction lines with
  | nil => intro st; exact ⟨rfl, fun _ => by simp [processBCLines]⟩
  | cons l ls ih =>
    intro st
    rw [processBCLines, processBCLine]
    split_ifs with h1 h2 h3 h4 h5 h6
    · exact ⟨rfl, by simp⟩
    · exact ⟨rfl, by simp⟩
    · exact ⟨rfl, by simp⟩
    · exact ⟨rfl, by simp⟩
    · exact absurd h5 (by omega)
    · obtain ⟨ihc, ihd⟩ := ih { st with
        bcs_names_used := st.bcs_names_used ++ [l.bc_name],
        anti_dup := st.anti_dup ++ [(gbcs.idOf l.bc_name, l.specie)],
        bc_dict := st.bc_dict ++ [(gbcs.idOf l.bc_name, l.specie, l.eqn)] }
      refine ⟨ihc, fun hok => ?_⟩
      rw [ihd hok]
      simp
    · exact ⟨rfl, by simp⟩

/-- Claim C9: with `points_per_model = 1` (derivative mode not required),
`create_boundary_conditions` leaves every entry of the state array `c0`
unchanged, and on success stores each boundary expression in its original,
un-differentiated form. -/
theorem C9_cstr_frame (specie_names : List String) (gbcs : GroupedBCsM)
    (points_for_bc : Int → List Nat) (Q_weights : Int → List ℚ) (t0 : ℚ)
    (diffT : SymExpr → SymExpr) (c0 : Nat → Nat → ℚ) (lines : List BCLine) :
    (∀ r n, (create_boundary_conditions_model specie_names gbcs points_for_bc Q_weights t0
        1 diffT c0 lines).1.c0 r n = c0 r n) ∧
    ((create_boundary_conditions_model specie_names gbcs points_for_bc Q_weights t0
        1 diffT c0 lines).2 = none →
      (create_boundary_conditions_model specie_names gbcs points_for_bc Q_weights t0
        1 diffT c0 lines).1.bc_dict
        = lines.map (fun l => (gbcs.idOf l.bc_name, l.specie, l.eqn))) := by
  obtain ⟨hc, hd⟩ := processBCLines_cstr specie_names gbcs points_for_bc diffT 1
    (by omega) lines
    { c0 := c0, anti_dup := [], bc_dict := [], bc_dict_for_c0 := [], bcs_names_used := [] }
  rw [create_boundary_conditions_model]
  rcases hP : processBCLines specie_names gbcs points_for_bc diffT 1
    { c0 := c0, anti_dup := [], bc_dict := [], bc_dict_for_c0 := [], bcs_names_used := [] }
    lines with ⟨st, opt⟩
  rw [hP] at hc hd
  cases opt with
  | some e => exact ⟨fun r n => by rw [hc], by simp⟩
  | none =>
    have hlt : ¬((1:Nat) > 1) := by omega
    simp only [if_neg hlt]
    refine ⟨fun r n => by rw [hc], fun _ => ?_⟩
    simpa using hd rfl

/-- The total contribution of an (index, value) list to position `n` under
`np.add.at` semantics: the sum of all values whose index is `n`. -/
def contribAt (pairs : List (Nat × ℚ)) (n : Nat) : ℚ :=
  (pairs.map (fun p => if p.1 = n then p.2 else 0)).sum

/-- `addAt` accumulates: the result at `n` is the old value plus the sum of
all contributions aimed at `n` (repeated indices add up). -/
theorem addAt_apply : ∀ (pairs : List (Nat × ℚ)) (c0row : Nat → ℚ) (n : Nat),
    addAt c0row pairs n = c0row n + contribAt pairs n
  | [], c0row, n => by simp [addAt, contribAt]
  | p :: ps, c0row, n => by
    have ih := addAt_apply ps (fun m => if p.1 = m then c0row m + p.2 else c0row m) n
    show addAt (fun m => if p.1 = m then c0row m + p.2 else c0row m) ps n = _
    rw [ih]
    by_cases hp : p.1 = n
    · simp [contribAt, hp]; ring
    · simp [contribAt, hp]

/-- The total override contribution of the stored expression table to entry
`(r, n)` of the state array. -/
def overrideContrib (specie_names : List String) (points_for_bc : Int → List Nat)
    (Q_weights : Int → List ℚ) (t0 : ℚ) (entries : List (Int × String × SymExpr))
    (r n : Nat) : ℚ :=
  (entries.map (fun e =>
    if r = specie_names.indexOf e.2.1 then
      contribAt ((points_for_bc e.1).zip
        ((Q_weights e.1).map (fun w => w * e.2.2.evalAt t0))) n
    else 0)).sum

/-- Pointwise reading of the post-loop override: each entry adds its
weighted evaluated expression into its species row, accumulating. -/
theorem applyC0Overrides_apply (specie_names : List String)
    (points_for_bc : Int → List Nat) (Q_weights : Int → List ℚ) (t0 : ℚ) :
    ∀ (entries : List (Int × String × SymExpr)) (c0 : Nat → Nat → ℚ) (r n : Nat),
    applyC0Overrides specie_names points_for_bc Q_weights t0 entries c0 r n
      = c0 r n + overrideContrib specie_names points_for_bc Q_weights t0 entries r n
  | [], c0, r, n => by simp [applyC0Overrides, overrideContrib]
  | e :: es, c0, r, n => by
    have ih := applyC0Overrides_apply specie_names points_for_bc Q_weights t0 es
      (fun r n =>
        if r = specie_names.indexOf e.2.1 then
          addAt (c0 r) ((points_for_bc e.1).zip
            ((Q_weights e.1).map (fun w => w * e.2.2.evalAt t0))) n
        else c0 r n) r n
    show applyC0Overrides specie_names points_for_bc Q_weights t0 es _ r n = _
    rw [ih]
    by_cases hr : r = specie_names.indexOf e.2.1
    · simp only [overrideContrib, List.map_cons, List.sum_cons, if_pos hr]
      rw [addAt_apply]
      show c0 r n + _ + _ = _
      ring
    · simp only [overrideContrib, List.map_cons, List.sum_cons, if_neg hr]
      show c0 r n + _ = _
      ring

/-- Whether some line of the batch targets entry `(r, n)` of the state
array: its species sits in row `r` and `n` is a node index of its
boundary. -/
def bcTargets (specie_names : List String) (gbcs : GroupedBCsM)
    (points_for_bc : Int → List Nat) (lines : List BCLine) (r n : Nat) : Bool :=
  lines.any (fun l =>
    decide (r = specie_names.indexOf l.specie) &&
    decide (n ∈ points_for_bc (gbcs.idOf l.bc_name)))

/-- Invariant of the line loop in derivative mode (`points_per_model > 1`):
on success, every targeted entry of `c0` has been zeroed (and nothing else
touched), and the for-`c0` table holds exactly the original expression of
every line, in order. -/
theorem processBCLines_deriv (specie_names : List String) (gbcs : GroupedBCsM)
    (points_for_bc : Int → List Nat) (diffT : SymExpr → SymExpr)
    (points_per_model : Nat) (h : points_per_model > 1) :
    ∀ (lines : List BCLine) (st : BCState),
    (processBCLines specie_names gbcs points_for_bc diffT points_per_model st lines).2
        = none →
      ((∀ r n,
        (processBCLines specie_names gbcs points_for_bc diffT points_per_model st lines).1.c0 r n
          = if bcTargets specie_names gbcs points_for_bc lines r n then 0 else st.c0 r n)
       ∧ (processBCLines specie_names gbcs points_for_bc diffT points_per_model st
            lines).1.bc_dict_for_c0
          = st.bc_dict_for_c0
              ++ lines.map (fun l => (gbcs.idOf l.bc_name, l.specie, l.eqn))) := by
  intro lines
  induction lines with
  | nil =>
    intro st _
    exact ⟨fun r n => by simp [processBCLines, bcTargets], by simp [processBCLines]⟩
  | cons l ls ih =>
    intro st
    rw [processBCLines, processBCLine]
    split_ifs with h1 h2 h3 h4 h5 h6 <;> intro hok <;> simp at hok
    · obtain ⟨ihc, ihd⟩ := ih _ hok
      refine ⟨fun r n => ?_, ?_⟩
      · exact (ihc r n).trans (by
          simp only [bcTargets, List.any_cons, Bool.or_eq_true, Bool.and_eq_true,
            decide_eq_true_eq, zeroRow]
          by_cases hA : r = specie_names.indexOf l.specie
          · by_cases hB : n ∈ points_for_bc (gbcs.idOf l.bc_name)
            · simp [hA, hB]
            · simp [hA, hB]
          · simp [hA])
      · exact ihd.trans (by simp)

/-- Claim C2: in derivative mode (`points_per_model > 1`), on success, every
entry of the state array targeted by some boundary line is first zeroed,
and then each (boundary, species) entry of the stored original-expression
table adds `flow-weight * expression(t0)` into the species row at the
boundary's node indices with accumulating add-at semantics (contributions
from several boundaries landing on one node sum rather than overwrite);
untargeted entries keep their original values and receive no
contribution. -/
theorem C2_derivative_mode (specie_names : List String) (gbcs : GroupedBCsM)
    (points_for_bc : Int → List Nat) (Q_weights : Int → List ℚ) (t0 : ℚ)
    (points_per_model : Nat) (diffT : SymExpr → SymExpr)
    (c0 : Nat → Nat → ℚ) (lines : List BCLine)
    (hppm : points_per_model > 1)
    (hok : (create_boundary_conditions_model specie_names gbcs points_for_bc Q_weights t0
        points_per_model diffT c0 lines).2 = none) :
    ∀ r n,
      (create_boundary_conditions_model specie_names gbcs points_for_bc Q_weights t0
          points_per_model diffT c0 lines).1.c0 r n
        = (if bcTargets specie_names gbcs points_for_bc lines r n then 0 else c0 r n)
          + overrideContrib specie_names points_for_bc Q_weights t0
              (lines.map (fun l => (gbcs.idOf l.bc_name, l.specie, l.eqn))) r n := by
  intro r n
  have hinv := processBCLines_deriv specie_names gbcs points_for_bc diffT
    points_per_model hppm lines
    { c0 := c0, anti_dup := [], bc_dict := [], bc_dict_for_c0 := [], bcs_names_used := [] }
  rw [create_boundary_conditions_model] at hok ⊢
  rcases hP : processBCLines specie_names gbcs points_for_bc diffT points_per_model
    { c0 := c0, anti_dup := [], bc_dict := [], bc_dict_for_c0 := [], bcs_names_used := [] }
    lines with ⟨st, opt⟩
  rw [hP] at hok hinv
  cases opt with
  | some e => simp at hok
  | none =>
    obtain ⟨hc, hd⟩ := hinv rfl
    show (if points_per_model > 1 then
        ({ st with
            c0 := applyC0Overrides specie_names points_for_bc Q_weights t0
                    st.bc_dict_for_c0 st.c0 }, (none : Option String))
      else (st, none)).1.c0 r n = _
    rw [if_pos hppm]
    show applyC0Overrides specie_names points_for_bc Q_weights t0 st.bc_dict_for_c0
      st.c0 r n = _
    rw [applyC0Overrides_apply, hc r n, hd]
    simp

theorem C2_witness :
    (2:Nat) > 1 ∧
    (create_boundary_conditions_model ["A"] ⟨fun _ => 0, []⟩ (fun _ => [0]) (fun _ => [2])
      0 2 (fun e => e) (fun _ _ => 5) [⟨"A", "in", ⟨∅, fun _ => 3⟩⟩]).2 = none ∧
    (create_boundary_conditions_model ["A"] ⟨fun _ => 0, []⟩ (fun _ => [0]) (fun _ => [2])
      0 2 (fun e => e) (fun _ _ => 5) [⟨"A", "in", ⟨∅, fun _ => 3⟩⟩]).1.c0 0 0 = 6 := by
  have hok : (create_boundary_conditions_model ["A"] ⟨fun _ => 0, []⟩ (fun _ => [0])
      (fun _ => [2]) 0 2 (fun e => e) (fun _ _ => 5) [⟨"A", "in", ⟨∅, fun _ => 3⟩⟩]).2
      = none := by decide
  refine ⟨by decide, hok, ?_⟩
  have h := C2_derivative_mode ["A"] ⟨fun _ => 0, []⟩ (fun _ => [0]) (fun _ => [2])
    0 2 (fun e => e) (fun _ _ => 5) [⟨"A", "in", ⟨∅, fun _ => 3⟩⟩] (by decide) hok 0 0
  rw [h]
  simp [bcTargets, overrideContrib, contribAt]
  norm_num

/-- One generated statement of the aggregate `boundary_conditions` function
(source line 184): add the boundary-and-species evaluation function at time
`t`, scaled by the boundary's weight array, into the species' row of the
state-derivative array at the boundary's node positions. -/
def aggStmt (specie_names : List String) (bc_name specie : String) : String :=
  "    _ddt[" ++ toString (List.indexOf specie specie_names) ++ ", points_" ++ bc_name
    ++ "] += " ++ bc_name ++ "_" ++ specie ++ "(t) * Q_weights_" ++ bc_name ++ "\n"

/-- The species specified on boundary `i`, in specification order (the keys
of the insertion-ordered `bc_dict[i]`). -/
def speciesFor (bc_dict : List (Int × String × SymExpr)) (i : Int) : List String :=
  (bc_dict.filter (fun e => e.1 = i)).map (fun e => e.2.1)

/-- `sorted(bcs_names_used)` of source line 155: the used boundary names as
a sorted duplicate-free list. -/
def sortedNames (used : List String) : List String :=
  List.insertionSort (fun a b => a ≤ b) used.dedup

/-- The generated aggregate function (source lines 177-185): the decorator
and signature lines, then one statement per used boundary (in sorted name
order) and species specified on it followed by a blank line per boundary,
or a lone `pass` when no boundary conditions are used. -/
def aggBlock (specie_names : List String) (gbcs : GroupedBCsM)
    (bc_dict : List (Int × String × SymExpr)) (used : List String) : List String :=
  ["@njit(inline='always')  # Do not cache, _ddt will be a large matrix\n",
   "def boundary_conditions(t: float, _ddt: ndarray) -> None:\n"]
  ++ (if sortedNames used = [] then ["    pass  # No boundary conditions used"]
      else (sortedNames used).flatMap (fun bc =>
        (speciesFor bc_dict (gbcs.idOf bc)).map (fun sp => aggStmt specie_names bc sp)
          ++ ["\n"]))

/-- Claim C7: the used boundary names are emitted in sorted, duplicate-free
order covering exactly the used names (so reruns with identical input emit
identically); for every used boundary and species specified on it, the
generated aggregate function contains the statement adding
`evaluation_function(t) * weight_array` into the state-derivative array at
that species' row and that boundary's positions; and with no boundary
conditions at all, the function body is a lone no-op `pass` line. -/
theorem C7_aggregate_codegen (specie_names : List String) (gbcs : GroupedBCsM)
    (bc_dict : List (Int × String × SymExpr)) (used : List String) :
    ((sortedNames used).Sorted (· ≤ ·) ∧ (sortedNames used).Nodup ∧
      (∀ s, s ∈ sortedNames used ↔ s ∈ used)) ∧
    (∀ bc ∈ used, ∀ sp ∈ speciesFor bc_dict (gbcs.idOf bc),
      aggStmt specie_names bc sp ∈ aggBlock specie_names gbcs bc_dict used) ∧
    (used = [] → aggBlock specie_names gbcs bc_dict used
      = ["@njit(inline='always')  # Do not cache, _ddt will be a large matrix\n",
         "def boundary_conditions(t: float, _ddt: ndarray) -> None:\n",
         "    pass  # No boundary conditions used"]) := by
  refine ⟨⟨List.sorted_insertionSort _ _,
    (List.perm_insertionSort _ _).nodup_iff.mpr (List.nodup_dedup used),
    fun s => (List.Perm.mem_iff (List.perm_insertionSort _ _)).trans (List.mem_dedup)⟩,
    fun bc hbc sp hsp => ?_, fun hu => ?_⟩
  · have hbc' : bc ∈ sortedNames used :=
      (List.Perm.mem_iff (List.perm_insertionSort _ _)).mpr (List.mem_dedup.mpr hbc)
    have hne : sortedNames used ≠ [] := fun h => by rw [h] at hbc'; exact absurd hbc' (by simp)
    rw [aggBlock, if_neg hne]
    refine List.mem_append_right _ ?_
    rw [List.mem_flatMap]
    exact ⟨bc, hbc', List.mem_append_left _ (List.mem_map_of_mem _ hsp)⟩
  · subst hu
    rfl

theorem C7_witness :
    "B" ∈ ["B", "A"] ∧ "s" ∈ speciesFor [((0:Int), "s", ⟨∅, fun _ => 0⟩)] 0 ∧
    aggStmt ["s"] "B" "s"
      ∈ aggBlock ["s"] ⟨fun _ => 0, []⟩ [((0:Int), "s", ⟨∅, fun _ => 0⟩)] ["B", "A"] :=
  ⟨by decide, by decide,
    (C7_aggregate_codegen ["s"] ⟨fun _ => 0, []⟩ [((0:Int), "s", ⟨∅, fun _ => 0⟩)]
      ["B", "A"]).2.1 "B" (by decide) "s" (by decide)⟩

/-- The line loop of `load_initial_conditions` (source lines 215-227):
each parsed line either removes its species from the outstanding set and
assigns the species' whole row of `c0`, or raises the duplicate /
unknown-species error, aborting with the state reached. -/
def loadICsGo (specie_names : List String) :
    List (String × ℚ) → List String → (Nat → Nat → ℚ) →
    ((Nat → Nat → ℚ) × List String) × Option String
  | [], out, c0 => ((c0, out), none)
  | (sp, v) :: ls, out, c0 =>
    if sp ∈ out then
      loadICsGo specie_names ls (out.erase sp)
        (fun r n => if r = specie_names.indexOf sp then v else c0 r n)
    else if sp ∈ specie_names then
      ((c0, out), some "Multiple initial conditions specified for specie")
    else
      ((c0, out), some "Unknown specie when specifying initial conditions")

/-- `load_initial_conditions`: the line loop started with every species
outstanding, then the final empty-outstanding assertion (source line
229). -/
def load_initial_conditions_model (specie_names : List String)
    (lines : List (String × ℚ)) (c0 : Nat → Nat → ℚ) :
    (Nat → Nat → ℚ) × Option String :=
  match loadICsGo specie_names lines specie_names c0 with
  | ((c0a, _), some e) => (c0a, some e)
  | ((c0a, out), none) =>
    if out = [] then (c0a, none)
    else (c0a, some "All species must have an explicit IC")

/-- Rows of `c0` belonging to no outstanding species are never written by
the line loop. -/
theorem loadICsGo_frame (specie_names : List String) :
    ∀ (ls : List (String × ℚ)) (out : List String) (c0 : Nat → Nat → ℚ) (r n : Nat),
    (∀ s ∈ out, r ≠ specie_names.indexOf s) →
    (loadICsGo specie_names ls out c0).1.1 r n = c0 r n
  | [], out, c0, r, n => fun _ => rfl
  | (sp, v) :: ls, out, c0, r, n => by
    intro hguard
    rw [loadICsGo]
    split_ifs with h1 h2
    · rw [loadICsGo_frame specie_names ls (out.erase sp) _ r n
        (fun s hs => hguard s (List.mem_of_mem_erase hs))]
      rw [if_neg (hguard sp h1)]
    · rfl
    · rfl

/-- On loop success every line's value sits in its species' whole row of
the resulting `c0`. -/
theorem loadICsGo_assign (specie_names : List String) :
    ∀ (ls : List (String × ℚ)) (out : List String) (c0 : Nat → Nat → ℚ),
    out.Nodup → (∀ s ∈ out, s ∈ specie_names) →
    (loadICsGo specie_names ls out c0).2 = none →
    ∀ p ∈ ls, ∀ n,
      (loadICsGo specie_names ls out c0).1.1 (specie_names.indexOf p.1) n = p.2
  | [], out, c0 => by intro _ _ _ p hp; simp at hp
  | (sp, v) :: ls, out, c0 => by
    intro hnd hsub hok p hp n
    rw [loadICsGo] at hok ⊢
    split_ifs at hok ⊢ with h1 h2
    · rcases List.mem_cons.mp hp with hph | hpt
      · subst hph
        rw [loadICsGo_frame specie_names ls (out.erase sp) _ (specie_names.indexOf sp) n
          (fun s hs => ?_)]
        · rw [if_pos rfl]
        · obtain ⟨hne, hmem⟩ := (List.Nodup.mem_erase_iff hnd).mp hs
          exact fun he =>
            hne ((List.indexOf_inj (hsub s hmem) (hsub sp h1)).mp he.symm)
      · exact loadICsGo_assign specie_names ls (out.erase sp) _
          (List.Nodup.erase sp hnd) (fun s hs => hsub s (List.mem_of_mem_erase hs))
          hok p hpt n

/-- On loop success the processed species are duplicate-free and all drawn
from the outstanding set. -/
theorem loadICsGo_nodup (specie_names : List String) :
    ∀ (ls : List (String × ℚ)) (out : List String) (c0 : Nat → Nat → ℚ),
    out.Nodup →
    (loadICsGo specie_names ls out c0).2 = none →
    (ls.map Prod.fst).Nodup ∧ (∀ sp ∈ ls.map Prod.fst, sp ∈ out)
  | [], out, c0 => by intro _ _; simp
  | (sp, v) :: ls, out, c0 => by
    intro hnd hok
    rw [loadICsGo] at hok
    split_ifs at hok with h1 h2
    obtain ⟨ihnd, ihsub⟩ := loadICsGo_nodup specie_names ls (out.erase sp) _
      (List.Nodup.erase sp hnd) hok
    refine ⟨List.nodup_cons.mpr ⟨fun hmem => ?_, ihnd⟩, fun s hs => ?_⟩
    · exact ((List.Nodup.mem_erase_iff hnd).mp (ihsub sp hmem)).1 rfl
    · rcases List.mem_cons.mp hs with hh | ht
      · exact hh ▸ h1
      · exact List.mem_of_mem_erase (ihsub s ht)

/-- On loop success the species left outstanding are exactly the starting
outstanding species that no line mentions. -/
theorem loadICsGo_leftover (specie_names : List String) :
    ∀ (ls : List (String × ℚ)) (out : List String) (c0 : Nat → Nat → ℚ),
    out.Nodup →
    (loadICsGo specie_names ls out c0).2 = none →
    ∀ s, (s ∈ (loadICsGo specie_names ls out c0).1.2
      ↔ (s ∈ out ∧ s ∉ ls.map Prod.fst))
  | [], out, c0 => by intro _ _ s; simp [loadICsGo]
  | (sp, v) :: ls, out, c0 => by
    intro hnd hok s
    rw [loadICsGo] at hok ⊢
    split_ifs at hok ⊢ with h1 h2
    rw [loadICsGo_leftover specie_names ls (out.erase sp) _
      (List.Nodup.erase sp hnd) hok s]
    rw [List.Nodup.mem_erase_iff hnd]
    simp only [List.map_cons, List.mem_cons]
    constructor
    · rintro ⟨⟨hne, hmem⟩, hnin⟩
      exact ⟨hmem, fun hor => hor.elim hne hnin⟩
    · rintro ⟨hmem, hnin⟩
      exact ⟨⟨fun he => hnin (Or.inl he), hmem⟩, fun ht => hnin (Or.inr ht)⟩

/-- Completeness of the loop: a duplicate-free batch of lines covering the
outstanding set exactly is accepted in full, ending with nothing
outstanding. -/
theorem loadICsGo_complete (specie_names : List String) :
    ∀ (ls : List (String × ℚ)) (out : List String) (c0 : Nat → Nat → ℚ),
    out.Nodup →
    (ls.map Prod.fst).Nodup →
    (∀ sp, sp ∈ ls.map Prod.fst ↔ sp ∈ out) →
    (loadICsGo specie_names ls out c0).2 = none
      ∧ (loadICsGo specie_names ls out c0).1.2 = []
  | [], out, c0 => by
    intro _ _ hiff
    refine ⟨rfl, List.eq_nil_iff_forall_not_mem.mpr fun s hs => ?_⟩
    simpa using (hiff s).mpr hs
  | (sp, v) :: ls, out, c0 => by
    intro hnd hlnd hiff
    have hsp : sp ∈ out := (hiff sp).mp (by simp)
    rw [loadICsGo, if_pos hsp]
    simp only [List.map_cons, List.nodup_cons] at hlnd
    refine loadICsGo_complete specie_names ls (out.erase sp) _
      (List.Nodup.erase sp hnd) hlnd.2 fun s => ?_
    rw [List.Nodup.mem_erase_iff hnd]
    constructor
    · intro hs
      exact ⟨fun he => hlnd.1 (he ▸ hs), (hiff s).mp (by simp [hs])⟩
    · rintro ⟨hne, hmem⟩
      rcases List.mem_cons.mp ((hiff s).mpr hmem) with hh | ht
      · exact absurd hh hne
      · exact ht

/-- A duplicate-specification error can only be raised when some species
occurs twice among the already-processed and remaining line species. -/
theorem loadICsGo_dup (specie_names : List String) :
    ∀ (ls : List (String × ℚ)) (out : List String) (c0 : Nat → Nat → ℚ) (P : List String),
    out.Nodup →
    (∀ s, s ∈ specie_names → s ∉ out → s ∈ P) →
    (loadICsGo specie_names ls out c0).2
        = some "Multiple initial conditions specified for specie" →
    ¬ (P ++ ls.map Prod.fst).Nodup
  | [], out, c0, P => by intro _ _ hok; simp [loadICsGo] at hok
  | (sp, v) :: ls, out, c0, P => by
    intro hnd hP hok
    rw [loadICsGo] at hok
    split_ifs at hok with h1 h2
    · have hstep := loadICsGo_dup specie_names ls (out.erase sp) _ (P ++ [sp])
        (List.Nodup.erase sp hnd)
        (fun s hsn hsout => by
          by_cases he : s = sp
          · simp [he]
          · have hout : s ∉ out :=
              fun hm => hsout ((List.Nodup.mem_erase_iff hnd).mpr ⟨he, hm⟩)
            simp [hP s hsn hout])
        hok
      intro hnodup
      exact hstep (by simpa [List.append_assoc] using hnodup)
    · intro hnodup
      obtain ⟨_, _, hdis⟩ := List.nodup_append.mp hnodup
      exact hdis (hP sp h2 h1) (by simp)
    · simp at hok

/-- An unknown-species error can only be raised when some line names a
species outside the registry. -/
theorem loadICsGo_unknown (specie_names : List String) :
    ∀ (ls : List (String × ℚ)) (out : List String) (c0 : Nat → Nat → ℚ),
    (loadICsGo specie_names ls out c0).2
        = some "Unknown specie when specifying initial conditions" →
    ∃ p ∈ ls, p.1 ∉ specie_names
  | [], out, c0 => by intro hok; simp [loadICsGo] at hok
  | (sp, v) :: ls, out, c0 => by
    intro hok
    rw [loadICsGo] at hok
    split_ifs at hok with h1 h2
    · obtain ⟨p, hp, hpn⟩ := loadICsGo_unknown specie_names ls (out.erase sp) _ hok
      exact ⟨p, List.mem_cons_of_mem _ hp, hpn⟩
    · simp at hok
    · exact ⟨(sp, v), by simp, h2⟩

/-- The line loop raises only the duplicate or unknown-species message. -/
theorem loadICsGo_msgs (specie_names : List String) :
    ∀ (ls : List (String × ℚ)) (out : List String) (c0 : Nat → Nat → ℚ) (e : String),
    (loadICsGo specie_names ls out c0).2 = some e →
    e = "Multiple initial conditions specified for specie"
      ∨ e = "Unknown specie when specifying initial conditions"
  | [], out, c0, e => by intro hok; simp [loadICsGo] at hok
  | (sp, v) :: ls, out, c0, e => by
    intro hok
    rw [loadICsGo] at hok
    split_ifs at hok with h1 h2
    · exact loadICsGo_msgs specie_names ls (out.erase sp) _ e hok
    · exact Or.inl (Option.some_injective _ hok.symm)
    · exact Or.inr (Option.some_injective _ hok.symm)

/-- Claim C8: `load_initial_conditions` succeeds exactly when the lines
name each registered species once and nothing else; on success each line's
value fills its species' entire row; a duplicate-specification error
implies a species on two lines, an unknown-species error implies a line
naming an unregistered species, and the final unresolved-species assertion
failure implies a registered species with no line. -/
theorem C8_initial_conditions (specie_names : List String)
    (lines : List (String × ℚ)) (c0 : Nat → Nat → ℚ) (hnd : specie_names.Nodup) :
    ((load_initial_conditions_model specie_names lines c0).2 = none
      ↔ ((lines.map Prod.fst).Nodup
          ∧ ∀ sp, sp ∈ lines.map Prod.fst ↔ sp ∈ specie_names))
    ∧ ((load_initial_conditions_model specie_names lines c0).2 = none →
        ∀ p ∈ lines, ∀ n,
          (load_initial_conditions_model specie_names lines c0).1
            (specie_names.indexOf p.1) n = p.2)
    ∧ ((load_initial_conditions_model specie_names lines c0).2
          = some "Multiple initial conditions specified for specie"
        → ¬ (lines.map Prod.fst).Nodup)
    ∧ ((load_initial_conditions_model specie_names lines c0).2
          = some "Unknown specie when specifying initial conditions"
        → ∃ p ∈ lines, p.1 ∉ specie_names)
    ∧ ((load_initial_conditions_model specie_names lines c0).2
          = some "All species must have an explicit IC"
        → ∃ sp ∈ specie_names, sp ∉ lines.map Prod.fst) := by
  rcases hP : loadICsGo specie_names lines specie_names c0 with ⟨⟨c0a, outF⟩, opt⟩
  cases opt with
  | some e =>
    have hmodel : load_initial_conditions_model specie_names lines c0 = (c0a, some e) := by
      rw [load_initial_conditions_model, hP]
    rw [hmodel]
    refine ⟨⟨fun h => by simp at h, fun ⟨h1, h2⟩ => ?_⟩,
      fun h => by simp at h, fun h => ?_, fun h => ?_, fun h => ?_⟩
    · have hc := (loadICsGo_complete specie_names lines specie_names c0 hnd h1 h2).1
      rw [hP] at hc
      simp at hc
    · have hdup := loadICsGo_dup specie_names lines specie_names c0 [] hnd
        (fun s hsn hsout => absurd hsn hsout) (by rw [hP]; exact h)
      simpa using hdup
    · exact loadICsGo_unknown specie_names lines specie_names c0 (by rw [hP]; exact h)
    · rcases loadICsGo_msgs specie_names lines specie_names c0 e (by rw [hP]) with
        he | he <;> rw [he] at h <;> simp at h
  | none =>
    by_cases hout : outF = []
    · have hmodel : load_initial_conditions_model specie_names lines c0 = (c0a, none) := by
        rw [load_initial_conditions_model, hP]
        show (if outF = [] then (c0a, (none : Option String))
          else (c0a, some "All species must have an explicit IC")) = _
        rw [if_pos hout]
      rw [hmodel]
      have hlo := loadICsGo_leftover specie_names lines specie_names c0 hnd (by rw [hP])
      refine ⟨⟨fun _ => ?_, fun _ => rfl⟩, fun _ p hp n => ?_,
        fun h => by simp at h, fun h => by simp at h, fun h => by simp at h⟩
      · obtain ⟨hln, hsub⟩ :=
          loadICsGo_nodup specie_names lines specie_names c0 hnd (by rw [hP])
        refine ⟨hln, fun sp => ⟨fun hm => hsub sp hm, fun hm => ?_⟩⟩
        by_contra hnm
        have hmem : sp ∈ (loadICsGo specie_names lines specie_names c0).1.2 :=
          (hlo sp).mpr ⟨hm, hnm⟩
        rw [hP, hout] at hmem
        simp at hmem
      · have ha := loadICsGo_assign specie_names lines specie_names c0 hnd
          (fun s hs => hs) (by rw [hP]) p hp n
        rw [hP] at ha
        exact ha
    · have hmodel : load_initial_conditions_model specie_names lines c0
          = (c0a, some "All species must have an explicit IC") := by
        rw [load_initial_conditions_model, hP]
        show (if outF = [] then (c0a, (none : Option String))
          else (c0a, some "All species must have an explicit IC")) = _
        rw [if_neg hout]
      rw [hmodel]
      refine ⟨⟨fun h => by simp at h, fun ⟨h1, h2⟩ => ?_⟩, fun h => by simp at h,
        fun h => by simp at h, fun h => by simp at h, fun _ => ?_⟩
      · have hc := (loadICsGo_complete specie_names lines specie_names c0 hnd h1 h2).2
        rw [hP] at hc
        exact (hout hc).elim
      · obtain ⟨s, hs⟩ := List.exists_mem_of_ne_nil outF hout
        have hlo := loadICsGo_leftover specie_names lines specie_names c0 hnd (by rw [hP]) s
        rw [hP] at hlo
        obtain ⟨hsn, hsm⟩ := hlo.mp hs
        exact ⟨s, hsn, hsm⟩

theorem C8_witness :
    (["A", "B"] : List String).Nodup ∧
    ((load_initial_conditions_model ["A", "B"] [("A", 1), ("B", 2)] (fun _ _ => 0)).2 = none
      ↔ (([("A", (1:ℚ)), ("B", 2)].map Prod.fst).Nodup
          ∧ ∀ sp, sp ∈ [("A", (1:ℚ)), ("B", 2)].map Prod.fst ↔ sp ∈ ["A", "B"])) :=
  ⟨by decide,
    (C8_initial_conditions ["A", "B"] [("A", 1), ("B", 2)] (fun _ _ => 0) (by decide)).1⟩

theorem C10_witness :
    strOKb "1".toList = true ∧
    parse_piecewise_heaviside_into_string
        (printE (.pw (.cons (.atom "1".toList) trueLit .nil))) =
      .ok ('(' :: ((('(' :: ("1".toList ++ [')'])) ++ ('*' :: "(not ())".toList)) ++ [')'])) :=
  ⟨by decide, C10_empty_disjunction_guard "1".toList (by decide)⟩
